import Mathlib

/-!
# Verification of the yellowpages dependency-graph engine and catalog lint checks

This file gives a shallow embedding of the dependency-graph engine
(`buildReverseIndex`, `walkDown`, `walkUp`, `findOrphans`, `resolveDeps` from
`src/commands/relations`-style module) and of the catalog integrity checker
(`findCircularDeps`, `findDuplicateNames`, `findMissingOwners`,
`findOrphanedOwnerRefs`, `findOrphanedSystemRefs`, `findDanglingDeps`,
`findEmptySystems`, `runLintChecks`) of the yellowpages CLI, and proves the
spec's testable properties about them.

Modelling conventions:
* TypeScript `string | undefined` fields become `Option String`; JavaScript
  truthiness of such a field (`s.owner && ...`, `!s.owner`) is `strTruthy`,
  which is false exactly on `none` and `some ""`.
* A JavaScript `Map` is an association list with unique keys (`mapGet` /
  `mapSet`); a `Set` of strings is a duplicate-free `List String` extended
  only after a membership check, exactly as the source does.
* `Service` keeps the fields the graph/lint core reads (`id`, `name`,
  `system`, `owner`, `dependsOn`); fields the core never touches
  (`created`, `updated`, `tags`, ...) are omitted.
* The traversal functions thread their mutated `visited` set explicitly:
  a call returns the produced forest together with the updated visited set.
* The source bounds `walkDown`/`walkUp` by an increasing `depth` compared
  against `maxDepth` (`if (depth >= maxDepth) return []`); the embedding
  threads the equivalent decreasing remaining budget
  `fuel = (maxDepth - depth).toNat`, checking `fuel = 0`, so that the
  recursion is structural.  All exported entry points start at `depth = 0`,
  i.e. `fuel = maxDepth.toNat`.
-/

/-- A dependency edge: target service id plus optional edge annotations
(`api`, `description`), as in `interface Dependency`. -/
structure Dependency where
  service : String
  api : Option String := none
  description : Option String := none
  deriving DecidableEq, Repr

/-- A catalog service record (the fields read by the graph/lint core). -/
structure Service where
  id : String
  name : String
  system : Option String := none
  owner : Option String := none
  dependsOn : Option (List Dependency) := none
  deriving DecidableEq, Repr

/-- A catalog system record (fields read by the lint core). -/
structure System where
  id : String
  name : String
  owner : Option String := none
  deriving DecidableEq, Repr

/-- A catalog owner record (fields read by the lint core). -/
structure Owner where
  id : String
  name : String
  deriving DecidableEq, Repr

/-- `s.dependsOn ?? []` — the dependency list of a service with the
`undefined` default applied. -/
def Service.deps (s : Service) : List Dependency :=
  s.dependsOn.getD []

/-- JavaScript truthiness of a `string | undefined` value: `undefined` and
`""` are falsy, every other string is truthy. -/
def strTruthy : Option String → Bool
  | none => false
  | some s => !(s == "")

/-- A node of the rendered dependency tree (`interface DepNode`). -/
inductive DepNode where
  | mk (id : String) (name : String) (api : Option String)
       (description : Option String) (children : List DepNode)
  deriving Repr

def DepNode.id : DepNode → String
  | .mk i _ _ _ _ => i

def DepNode.name : DepNode → String
  | .mk _ n _ _ _ => n

def DepNode.api : DepNode → Option String
  | .mk _ _ a _ _ => a

def DepNode.description : DepNode → Option String
  | .mk _ _ _ d _ => d

def DepNode.children : DepNode → List DepNode
  | .mk _ _ _ _ c => c

/-- JavaScript `Map.get`: the value stored at `k`, if any. -/
def mapGet {α : Type} (m : List (String × α)) (k : String) : Option α :=
  (m.find? (fun p => p.1 == k)).map (·.2)

/-- JavaScript `Map.set`: update the value at `k` in place if present,
otherwise append a new entry (insertion order preserved). -/
def mapSet {α : Type} (m : List (String × α)) (k : String) (v : α) :
    List (String × α) :=
  match m with
  | [] => [(k, v)]
  | (k', v') :: rest =>
    if k' = k then (k, v) :: rest else (k', v') :: mapSet rest k v

/-- One entry of the reverse index: a service that depends on the key,
with the edge annotations carried over. -/
structure RevEntry where
  service : Service
  api : Option String
  description : Option String
  deriving DecidableEq, Repr

/-- The inner loop of `buildReverseIndex`: record every dependency of `s`
in the reverse map (`list.push(...)` then `reverse.set(...)`). -/
def insertDeps (s : Service) (deps : List Dependency)
    (reverse : List (String × List RevEntry)) : List (String × List RevEntry) :=
  match deps with
  | [] => reverse
  | dep :: rest =>
    insertDeps s rest
      (mapSet reverse dep.service
        ((mapGet reverse dep.service).getD [] ++ [⟨s, dep.api, dep.description⟩]))

/-- The outer loop of `buildReverseIndex` over all services. -/
def buildReverseIndexAux (services : List Service)
    (reverse : List (String × List RevEntry)) : List (String × List RevEntry) :=
  match services with
  | [] => reverse
  | s :: rest => buildReverseIndexAux rest (insertDeps s s.deps reverse)

/-- `buildReverseIndex(services)`: map from service id to the services that
depend on it, with edge annotations. -/
def buildReverseIndex (services : List Service) : List (String × List RevEntry) :=
  buildReverseIndexAux services []

/-- `new Map(services.map(s => [s.id, s])).get(id)`: on duplicate ids the
later array entry overwrites the earlier, so the last match wins. -/
def serviceMapGet (services : List Service) (id : String) : Option Service :=
  services.reverse.find? (fun s => s.id == id)

/-- `walkDown`, with the remaining depth budget as fuel
(`fuel = maxDepth - depth`, see the module comment).  Returns the forest of
`DepNode`s together with the updated visited set. -/
def walkDownF (serviceId : String) (services : List Service) (fuel : Nat)
    (visited : List String) : List DepNode × List String :=
  match fuel with
  | 0 => ([], visited)
  | f + 1 =>
    if visited.contains serviceId then ([], visited)
    else
      let v := visited ++ [serviceId]
      match serviceMapGet services serviceId with
      | none => ([], v)
      | some service =>
        service.deps.foldl
          (fun acc dep =>
            let res := walkDownF dep.service services f acc.2
            (acc.1 ++ [DepNode.mk dep.service
              (((serviceMapGet services dep.service).map Service.name).getD dep.service)
              dep.api dep.description res.1], res.2))
          ([], v)

/-- `walkUp`, fuelled like `walkDownF`, walking the reverse index. -/
def walkUpF (serviceId : String) (reverseIndex : List (String × List RevEntry))
    (fuel : Nat) (visited : List String) : List DepNode × List String :=
  match fuel with
  | 0 => ([], visited)
  | f + 1 =>
    if visited.contains serviceId then ([], visited)
    else
      let v := visited ++ [serviceId]
      ((mapGet reverseIndex serviceId).getD []).foldl
        (fun acc dep =>
          let res := walkUpF dep.service.id reverseIndex f acc.2
          (acc.1 ++ [DepNode.mk dep.service.id dep.service.name
            dep.api dep.description res.1], res.2))
        ([], v)

/-- `walkDown(serviceId, serviceMap, maxDepth)` as called by the engine
(fresh visited set, depth 0).  `maxDepth` is an arbitrary integer; any
non-positive value gives an empty forest. -/
def walkDown (serviceId : String) (services : List Service) (maxDepth : Int) :
    List DepNode :=
  (walkDownF serviceId services maxDepth.toNat []).1

/-- `walkUp(serviceId, reverseIndex, maxDepth)` as called by the engine. -/
def walkUp (serviceId : String) (reverseIndex : List (String × List RevEntry))
    (maxDepth : Int) : List DepNode :=
  (walkUpF serviceId reverseIndex maxDepth.toNat []).1

/-- `findOrphans(services)`: services with no dependencies in or out. -/
def findOrphans (services : List Service) : List Service :=
  let reverseIndex := buildReverseIndex services
  services.filter (fun s =>
    let hasDepsDown := decide (0 < s.deps.length)
    let hasDepsUp := decide (0 < ((mapGet reverseIndex s.id).getD []).length)
    !hasDepsDown && !hasDepsUp)

/-- The result shape of `resolveDeps`. -/
structure DepsResult where
  serviceId : String
  serviceName : String
  dependents : List DepNode
  dependencies : List DepNode
  deriving Repr

/-- `resolveDeps(serviceId, services, maxDepth, direction?)`. -/
def resolveDeps (serviceId : String) (services : List Service) (maxDepth : Int)
    (direction : Option String) : DepsResult :=
  let service := serviceMapGet services serviceId
  { serviceId := serviceId
    serviceName := (service.map Service.name).getD serviceId
    dependents :=
      if direction == some "down" then []
      else walkUp serviceId (buildReverseIndex services) maxDepth
    dependencies :=
      if direction == some "up" then []
      else walkDown serviceId services maxDepth }

/-- One lint finding (`interface LintResult`); `severity` is `"error"` or
`"warning"`. -/
structure LintResult where
  type : String
  severity : String
  entity : String
  entityKind : String
  message : String
  fix : Option String := none
  deriving DecidableEq, Repr

/-- The dedup key of the cycle checker: `[a, b].sort().join(":")`. -/
def sortKey (a b : String) : String :=
  if a ≤ b then a ++ ":" ++ b else b ++ ":" ++ a

/-- The finding pushed when the cycle walk starting at `origin` reaches the
already-on-path id `id`. -/
def circFinding (services : List Service) (origin : Service) (id : String) :
    LintResult :=
  { type := "circular_dependency"
    severity := "error"
    entity := origin.name
    entityKind := "service"
    message := "Circular dependency detected: " ++ origin.name ++ " ↔ " ++
      (((serviceMapGet services id).map Service.name).getD id) }

/-- Auxiliary: a filter by a stronger predicate is at most as long. -/
theorem length_filter_le_of_imp {α : Type} (l : List α) (p q : α → Bool)
    (h : ∀ a, q a = true → p a = true) :
    (l.filter q).length ≤ (l.filter p).length := by
  induction l with
  | nil => simp
  | cons b t ih =>
    simp only [List.filter_cons]
    by_cases hq : q b = true
    · rw [if_pos hq, if_pos (h b hq)]
      simpa using ih
    · rw [if_neg hq]
      by_cases hp : p b = true
      · rw [if_pos hp]
        exact Nat.le_succ_of_le ih
      · rw [if_neg hp]
        exact ih

/-- Auxiliary: excluding a present, not-yet-excluded element strictly
shrinks the filtered list. -/
theorem length_filter_not_mem_lt (l anc : List String) (x : String)
    (hx : x ∈ l) (hnot : x ∉ anc) :
    (l.filter (fun y => decide (y ∉ anc ++ [x]))).length <
      (l.filter (fun y => decide (y ∉ anc))).length := by
  induction l with
  | nil => cases hx
  | cons b t ih =>
    have himp : ∀ y : String,
        (decide (y ∉ anc ++ [x]) = true) → (decide (y ∉ anc) = true) := by
      intro y hy
      simp only [decide_eq_true_eq, List.mem_append] at hy ⊢
      exact fun hmem => hy (Or.inl hmem)
    simp only [List.filter_cons]
    rcases List.mem_cons.mp hx with rfl | hmem
    · have h1 : ¬(decide (x ∉ anc ++ [x]) = true) := by simp
      have h2 : decide (x ∉ anc) = true := by simpa using hnot
      rw [if_neg h1, if_pos h2]
      have hle := length_filter_le_of_imp t _ _ himp
      simp only [List.length_cons]
      omega
    · by_cases ha : b ∉ anc ++ [x]
      · have h1 : decide (b ∉ anc ++ [x]) = true := by simpa using ha
        have h2 : decide (b ∉ anc) = true := by
          simp only [List.mem_append] at ha
          simpa using fun hm => ha (Or.inl hm)
        rw [if_pos h1, if_pos h2]
        simpa using ih hmem
      · have h1 : ¬(decide (b ∉ anc ++ [x]) = true) := by simpa using ha
        rw [if_neg h1]
        by_cases hb : b ∉ anc
        · have h2 : decide (b ∉ anc) = true := by simpa using hb
          rw [if_pos h2]
          exact Nat.lt_succ_of_lt (ih hmem)
        · have h2 : ¬(decide (b ∉ anc) = true) := by simpa using hb
          rw [if_neg h2]
          exact ih hmem

/-- A successful `serviceMapGet` lookup returns a member with the queried id. -/
theorem serviceMapGet_eq_some {services : List Service} {id : String}
    {s : Service} (h : serviceMapGet services id = some s) :
    s ∈ services ∧ s.id = id := by
  unfold serviceMapGet at h
  constructor
  · exact List.mem_reverse.mp (List.mem_of_find?_eq_some h)
  · have := List.find?_some h
    simpa using this

/-- Termination measure of the cycle walk: how many known service ids are
not yet on the ancestor path. -/
def unvisitedCount (services : List Service) (ancestors : List String) : Nat :=
  ((services.map Service.id).filter (fun x => decide (x ∉ ancestors))).length

theorem unvisitedCount_lt {services : List Service} {anc : List String}
    {id : String} (hx : id ∈ services.map Service.id) (hnot : id ∉ anc) :
    unvisitedCount services (anc ++ [id]) < unvisitedCount services anc :=
  length_filter_not_mem_lt _ anc id hx hnot

mutual

/-- The recursive `walk(id)` of `findCircularDeps`: DFS carrying the
ancestor path `ancestors`; `st` is the pair of accumulated findings and
reported dedup keys (both shared across the whole run). -/
def circWalk (services : List Service) (origin : Service) (id : String)
    (ancestors : List String) (st : List LintResult × List String) :
    List LintResult × List String :=
  if h1 : ancestors.contains id then
    if st.2.contains (sortKey origin.id id) then st
    else (st.1 ++ [circFinding services origin id],
          st.2 ++ [sortKey origin.id id])
  else
    match h2 : serviceMapGet services id with
    | none => st
    | some s => circWalkDeps services origin s.deps (ancestors ++ [id]) st
termination_by (unvisitedCount services ancestors, 1, 0)
decreasing_by
  apply Prod.Lex.left
  have hm := serviceMapGet_eq_some h2
  exact unvisitedCount_lt (hm.2 ▸ List.mem_map_of_mem Service.id hm.1)
    (by simpa using h1)

/-- The loop `for dep of deps: walk(dep.service)` of `findCircularDeps`. -/
def circWalkDeps (services : List Service) (origin : Service)
    (deps : List Dependency) (ancestors : List String)
    (st : List LintResult × List String) : List LintResult × List String :=
  match deps with
  | [] => st
  | dep :: rest =>
    circWalkDeps services origin rest ancestors
      (circWalk services origin dep.service ancestors st)
termination_by (unvisitedCount services ancestors, 2, deps.length)
decreasing_by
  · apply Prod.Lex.right
    apply Prod.Lex.left
    omega
  · apply Prod.Lex.right
    apply Prod.Lex.right
    simp

end

/-- `findCircularDeps(services)` with its internal state exposed: the final
pair of (findings, reported dedup keys). -/
def findCircularDepsAux (services : List Service) :
    List LintResult × List String :=
  services.foldl
    (fun st service =>
      circWalkDeps services service
        (((serviceMapGet services service.id).map Service.deps).getD [])
        [service.id] st)
    ([], [])

/-- `findCircularDeps(services)`: the findings of the cycle checker. -/
def findCircularDeps (services : List Service) : List LintResult :=
  (findCircularDepsAux services).1

/-- `findOrphanedSystemRefs(services, systemIds)`. -/
def findOrphanedSystemRefs (services : List Service) (systemIds : List String) :
    List LintResult :=
  services.filterMap (fun s =>
    if strTruthy s.system && !(systemIds.contains (s.system.getD "")) then
      some { type := "orphaned_system_ref"
             severity := "error"
             entity := s.name
             entityKind := "service"
             message := "References system \"" ++ s.system.getD "" ++
               "\" which does not exist"
             fix := some ("yp service rm " ++ s.name ++
               "  OR  yp system add --name <name>") }
    else none)

/-- `findOrphanedOwnerRefs(services, systems, ownerIds)`: the service loop
followed by the system loop. -/
def findOrphanedOwnerRefs (services : List Service) (systems : List System)
    (ownerIds : List String) : List LintResult :=
  services.filterMap (fun s =>
    if strTruthy s.owner && !(ownerIds.contains (s.owner.getD "")) then
      some { type := "orphaned_owner_ref"
             severity := "error"
             entity := s.name
             entityKind := "service"
             message := "References owner \"" ++ s.owner.getD "" ++
               "\" which does not exist" }
    else none) ++
  systems.filterMap (fun sys =>
    if strTruthy sys.owner && !(ownerIds.contains (sys.owner.getD "")) then
      some { type := "orphaned_owner_ref"
             severity := "error"
             entity := sys.name
             entityKind := "system"
             message := "References owner \"" ++ sys.owner.getD "" ++
               "\" which does not exist" }
    else none)

/-- The `missing_owner` finding produced for service `s`. -/
def missingOwnerFinding (s : Service) : LintResult :=
  { type := "missing_owner"
    severity := "warning"
    entity := s.name
    entityKind := "service"
    message := "Has no owner assigned"
    fix := some ("yp service add --name " ++ s.name ++ " --owner <owner>") }

/-- `findMissingOwners(services)`: services with a falsy `owner`. -/
def findMissingOwners (services : List Service) : List LintResult :=
  (services.filter (fun s => !(strTruthy s.owner))).map missingOwnerFinding

/-- `findDanglingDeps(services, serviceIds)`. -/
def findDanglingDeps (services : List Service) (serviceIds : List String) :
    List LintResult :=
  (services.map (fun s =>
    s.deps.filterMap (fun dep =>
      if serviceIds.contains dep.service then none
      else
        some { type := "dangling_dependency"
               severity := "error"
               entity := s.name
               entityKind := "service"
               message := "Depends on \"" ++ dep.service ++
                 "\" which does not exist" }))).flatten

/-- JavaScript `name.toLowerCase()`, modelled as per-character ASCII/Unicode
simple lower-casing (`Char.toLower` on each character). -/
def strLower (s : String) : String := ⟨s.data.map Char.toLower⟩

/-- `tallyNames`: the `seen` map of `findDuplicateNames.check`, counting
case-insensitive occurrences in insertion order. -/
def tallyNames (items : List String) (seen : List (String × Nat)) :
    List (String × Nat) :=
  match items with
  | [] => seen
  | n :: rest =>
    tallyNames rest
      (mapSet seen (strLower n) ((mapGet seen (strLower n)).getD 0 + 1))

/-- The `duplicate_name` finding pushed for a tally entry. -/
def dupFinding (kind : String) (p : String × Nat) : LintResult :=
  { type := "duplicate_name"
    severity := "error"
    entity := p.1
    entityKind := kind
    message := toString p.2 ++ " " ++ kind ++ "s share the name \"" ++
      p.1 ++ "\"" }

/-- The `check(items, kind)` closure of `findDuplicateNames`: one
`duplicate_name` finding per lower-cased name shared more than once. -/
def dupFindings (kind : String) (names : List String) : List LintResult :=
  (tallyNames names []).filterMap (fun p =>
    if 1 < p.2 then some (dupFinding kind p) else none)

/-- `findDuplicateNames(services, systems, owners)`. -/
def findDuplicateNames (services : List Service) (systems : List System)
    (owners : List Owner) : List LintResult :=
  dupFindings "service" (services.map Service.name) ++
  dupFindings "system" (systems.map System.name) ++
  dupFindings "owner" (owners.map Owner.name)

/-- `findEmptySystems(systems, services)`. -/
def findEmptySystems (systems : List System) (services : List Service) :
    List LintResult :=
  (systems.filter (fun sys =>
    !(services.any (fun s => s.system == some sys.id)))).map (fun sys =>
    { type := "empty_system"
      severity := "warning"
      entity := sys.name
      entityKind := "system"
      message := "System has no services" })

/-- `runLintChecks(services, systems, owners)`: all checks concatenated. -/
def runLintChecks (services : List Service) (systems : List System)
    (owners : List Owner) : List LintResult :=
  findOrphanedSystemRefs services (systems.map System.id) ++
  findOrphanedOwnerRefs services systems (owners.map Owner.id) ++
  findMissingOwners services ++
  findDanglingDeps services (services.map Service.id) ++
  findCircularDeps services ++
  findDuplicateNames services systems owners ++
  findEmptySystems systems services

mutual

/-- Number of nodes of a dependency tree. -/
def DepNode.size : DepNode → Nat
  | .mk _ _ _ _ cs => 1 + sizeForest cs

/-- Total number of nodes of a dependency forest. -/
def sizeForest : List DepNode → Nat
  | [] => 0
  | n :: rest => n.size + sizeForest rest

end

mutual

/-- Height of a dependency tree (a leaf has height 1). -/
def DepNode.height : DepNode → Nat
  | .mk _ _ _ _ cs => 1 + heightForest cs

/-- Height of a dependency forest (the empty forest has height 0). -/
def heightForest : List DepNode → Nat
  | [] => 0
  | n :: rest => max n.height (heightForest rest)

end

/-- Total number of dependency edges declared by a service list. -/
def totalDeps (services : List Service) : Nat :=
  (services.map (fun s => s.deps.length)).sum

/-- Total number of entries of a reverse index. -/
def totalEntries (rmap : List (String × List RevEntry)) : Nat :=
  (rmap.map (fun p => p.2.length)).sum

/-- Potential of a downward walk: dependency edges of services whose id is
not yet visited. -/
def phiDown (services : List Service) (visited : List String) : Nat :=
  (services.map (fun s => if s.id ∈ visited then 0 else s.deps.length)).sum

/-- Potential of an upward walk: reverse-index entries under keys not yet
visited. -/
def phiUp (rmap : List (String × List RevEntry)) (visited : List String) : Nat :=
  (rmap.map (fun p => if p.1 ∈ visited then 0 else p.2.length)).sum

/-! Concrete catalogs used to witness or refute the claims. -/

/-- Diamond with a tail: A → B, A → C, B → D, C → D, D → E. -/
def demoDiamond : List Service :=
  [{ id := "a", name := "A", dependsOn := some [⟨"b", none, none⟩, ⟨"c", none, none⟩] },
   { id := "b", name := "B", dependsOn := some [⟨"d", none, none⟩] },
   { id := "c", name := "C", dependsOn := some [⟨"d", none, none⟩] },
   { id := "d", name := "D", dependsOn := some [⟨"e", none, none⟩] },
   { id := "e", name := "E" }]

/-- A single service with a dangling dependency on `ghost`. -/
def demoGhost : List Service :=
  [{ id := "g", name := "G", dependsOn := some [⟨"ghost", none, none⟩] }]

/-- Three services whose colon-bearing ids make two distinct
(origin, detection point) pairs collide on the same dedup key. -/
def demoColon : List Service :=
  [{ id := "c", name := "n1", dependsOn := some [⟨"c:c:c", none, none⟩] },
   { id := "c:c:c", name := "n2", dependsOn := some [⟨"c:c:c", none, none⟩] },
   { id := "c:c", name := "n3", dependsOn := some [⟨"c:c", none, none⟩] }]

/-- Two services depending on each other (a direct 2-cycle). -/
def demoPair : List Service :=
  [{ id := "s1", name := "S1", dependsOn := some [⟨"s2", none, none⟩] },
   { id := "s2", name := "S2", dependsOn := some [⟨"s1", none, none⟩] }]

/-- A service with a self-dependency. -/
def demoSelf : List Service :=
  [{ id := "s1", name := "S1", dependsOn := some [⟨"s1", none, none⟩] }]

/-- Two services sharing the case-insensitive name `svc-c`, a system named
like the first service, plus a uniquely named service. -/
def demoDupServices : List Service :=
  [{ id := "i1", name := "svc-c" },
   { id := "i2", name := "SVC-C" },
   { id := "i3", name := "payments" }]

/-- A system sharing the literal name `payments` with a service. -/
def demoDupSystems : List System :=
  [{ id := "y1", name := "payments" }]

/-- A service whose `owner` field is present but empty. -/
def demoEmptyOwner : List Service :=
  [{ id := "e1", name := "EmptyOwned", owner := some "" }]

/-- The loop body of `walkDownF`'s dependency fold, named for reasoning:
append the node built for `dep` and thread the visited set. -/
def walkDownStep (services : List Service) (f : Nat)
    (acc : List DepNode × List String) (dep : Dependency) :
    List DepNode × List String :=
  let res := walkDownF dep.service services f acc.2
  (acc.1 ++ [DepNode.mk dep.service
    (((serviceMapGet services dep.service).map Service.name).getD dep.service)
    dep.api dep.description res.1], res.2)

/-- The loop body of `walkUpF`'s dependents fold, named for reasoning. -/
def walkUpStep (rmap : List (String × List RevEntry)) (f : Nat)
    (acc : List DepNode × List String) (dep : RevEntry) :
    List DepNode × List String :=
  let res := walkUpF dep.service.id rmap f acc.2
  (acc.1 ++ [DepNode.mk dep.service.id dep.service.name
    dep.api dep.description res.1], res.2)

/-! ## Association-list (JavaScript `Map`) lemmas -/

theorem mapGet_cons {α : Type} (k0 : String) (v0 : α) (m : List (String × α))
    (k : String) :
    mapGet ((k0, v0) :: m) k = if k0 = k then some v0 else mapGet m k := by
  by_cases h : k0 = k
  · rw [if_pos h]
    simp [mapGet, List.find?_cons_of_pos, h]
  · rw [if_neg h]
    unfold mapGet
    rw [List.find?_cons_of_neg]
    simpa using h

theorem mapGet_mapSet {α : Type} (m : List (String × α)) (k k' : String)
    (v : α) :
    mapGet (mapSet m k v) k' = if k' = k then some v else mapGet m k' := by
  induction m with
  | nil =>
    show mapGet [(k, v)] k' = _
    rw [mapGet_cons]
    by_cases h : k' = k
    · rw [if_pos (h ▸ rfl), if_pos h]
    · rw [if_neg (fun hc => h hc.symm), if_neg h]
  | cons p rest ih =>
    obtain ⟨k0, v0⟩ := p
    show mapGet (if k0 = k then (k, v) :: rest else (k0, v0) :: mapSet rest k v) k' = _
    by_cases hk : k0 = k
    · rw [if_pos hk, mapGet_cons, mapGet_cons]
      by_cases h : k' = k
      · rw [if_pos (h ▸ rfl), if_pos h]
      · rw [if_neg (fun hc => h hc.symm), if_neg h,
          if_neg (hk ▸ (fun hc => h hc.symm) : ¬ k0 = k')]
    · rw [if_neg hk, mapGet_cons]
      by_cases h : k0 = k'
      · rw [if_pos h, mapGet_cons, if_pos h,
          if_neg (fun hc : k' = k => hk (h ▸ hc))]
      · rw [if_neg h, mapGet_cons, if_neg h, ih]

/-! ## Reverse-index lemmas -/

/-- Entries already present in the reverse map survive `insertDeps`. -/
theorem insertDeps_preserves (s : Service) (deps : List Dependency)
    (rev : List (String × List RevEntry)) (k : String) (e : RevEntry)
    (h : e ∈ (mapGet rev k).getD []) :
    e ∈ (mapGet (insertDeps s deps rev) k).getD [] := by
  induction deps generalizing rev with
  | nil => exact h
  | cons dep rest ih =>
    apply ih
    rw [mapGet_mapSet]
    by_cases hk : k = dep.service
    · rw [if_pos hk]
      subst hk
      exact List.mem_append.mpr (Or.inl h)
    · rwa [if_neg hk]

/-- `insertDeps` records every dependency of `s` under its target id. -/
theorem insertDeps_adds (s : Service) (deps : List Dependency)
    (rev : List (String × List RevEntry)) (d : Dependency) (hd : d ∈ deps) :
    (⟨s, d.api, d.description⟩ : RevEntry) ∈
      (mapGet (insertDeps s deps rev) d.service).getD [] := by
  induction deps generalizing rev with
  | nil => cases hd
  | cons dep rest ih =>
    rcases List.mem_cons.mp hd with rfl | hmem
    · show _ ∈ (mapGet (insertDeps s rest _) d.service).getD []
      apply insertDeps_preserves
      rw [mapGet_mapSet, if_pos rfl]
      simp
    · exact ih _ hmem

/-- Entries already present survive the outer reverse-index loop. -/
theorem buildReverseIndexAux_preserves (services : List Service)
    (rev : List (String × List RevEntry)) (k : String) (e : RevEntry)
    (h : e ∈ (mapGet rev k).getD []) :
    e ∈ (mapGet (buildReverseIndexAux services rev) k).getD [] := by
  induction services generalizing rev with
  | nil => exact h
  | cons s rest ih => exact ih _ (insertDeps_preserves s s.deps rev k e h)

/-- Core membership property of the reverse index (over any accumulator). -/
theorem buildReverseIndexAux_adds (services : List Service)
    (rev : List (String × List RevEntry)) (s : Service) (d : Dependency)
    (hs : s ∈ services) (hd : d ∈ s.deps) :
    (⟨s, d.api, d.description⟩ : RevEntry) ∈
      (mapGet (buildReverseIndexAux services rev) d.service).getD [] := by
  induction services generalizing rev with
  | nil => cases hs
  | cons t rest ih =>
    rcases List.mem_cons.mp hs with rfl | hmem
    · exact buildReverseIndexAux_preserves rest _ _ _
        (insertDeps_adds s s.deps rev d hd)
    · exact ih _ hmem

/-- If no dependency in `deps` targets `k`, `insertDeps` leaves `k` alone. -/
theorem mapGet_insertDeps_of_not_target (s : Service) (deps : List Dependency)
    (rev : List (String × List RevEntry)) (k : String)
    (h : ∀ d ∈ deps, d.service ≠ k) :
    mapGet (insertDeps s deps rev) k = mapGet rev k := by
  induction deps generalizing rev with
  | nil => rfl
  | cons dep rest ih =>
    rw [show insertDeps s (dep :: rest) rev = insertDeps s rest _ from rfl,
      ih _ (fun d hd => h d (List.mem_cons_of_mem _ hd)), mapGet_mapSet,
      if_neg (fun hc => h dep (List.mem_cons_self _ _) hc.symm)]

/-- The outer loop leaves untargeted keys unchanged. -/
theorem mapGet_buildReverseIndexAux_of_not_target (services : List Service)
    (rev : List (String × List RevEntry)) (k : String)
    (h : ∀ s ∈ services, ∀ d ∈ s.deps, d.service ≠ k) :
    mapGet (buildReverseIndexAux services rev) k = mapGet rev k := by
  induction services generalizing rev with
  | nil => rfl
  | cons s rest ih =>
    rw [show buildReverseIndexAux (s :: rest) rev
        = buildReverseIndexAux rest (insertDeps s s.deps rev) from rfl,
      ih _ (fun t ht => h t (List.mem_cons_of_mem _ ht)),
      mapGet_insertDeps_of_not_target _ _ _ _ (h s (List.mem_cons_self _ _))]

/-- Ids never targeted by any dependency have no reverse-index key. -/
theorem mapGet_buildReverseIndex_of_not_target (services : List Service)
    (k : String) (h : ∀ s ∈ services, ∀ d ∈ s.deps, d.service ≠ k) :
    mapGet (buildReverseIndex services) k = none :=
  mapGet_buildReverseIndexAux_of_not_target services [] k h

/-- C6: for every service `s` and dependency `d` of `s`, the reverse index
stores under key `d.service` an entry referencing `s` with `d`'s `api` and
`description` verbatim; and every id on which no service depends is an
absent key (no entry at all, not an empty list). -/
theorem c6_buildReverseIndex_correct (services : List Service) :
    (∀ s ∈ services, ∀ d ∈ s.deps,
      ∃ l, mapGet (buildReverseIndex services) d.service = some l ∧
        (⟨s, d.api, d.description⟩ : RevEntry) ∈ l) ∧
    (∀ id : String, (∀ s ∈ services, ∀ d ∈ s.deps, d.service ≠ id) →
      mapGet (buildReverseIndex services) id = none) := by
  constructor
  · intro s hs d hd
    have hm : (⟨s, d.api, d.description⟩ : RevEntry) ∈
        (mapGet (buildReverseIndex services) d.service).getD [] :=
      buildReverseIndexAux_adds services [] s d hs hd
    cases hq : mapGet (buildReverseIndex services) d.service with
    | none =>
      rw [hq] at hm
      cases hm
    | some l =>
      rw [hq] at hm
      exact ⟨l, rfl, hm⟩
  · intro id h
    exact mapGet_buildReverseIndex_of_not_target services id h

/-- C6 witness: in the diamond catalog, `B`'s dependency on `d` is indexed
under `d`, and the untargeted id `zz` has no reverse-index key. -/
theorem c6_buildReverseIndex_correct_witness :
    (∃ l, mapGet (buildReverseIndex demoDiamond) "d" = some l ∧
      (⟨{ id := "b", name := "B", dependsOn := some [⟨"d", none, none⟩] },
        none, none⟩ : RevEntry) ∈ l) ∧
    mapGet (buildReverseIndex demoDiamond) "zz" = none := by
  constructor
  · exact (c6_buildReverseIndex_correct demoDiamond).1
      { id := "b", name := "B", dependsOn := some [⟨"d", none, none⟩] }
      (by decide) ⟨"d", none, none⟩ (by decide)
  · exact (c6_buildReverseIndex_correct demoDiamond).2 "zz" (by decide)

/-- C7: `findOrphans` returns exactly the services with an empty (or
absent) `dependsOn` list and whose id no service's dependency targets. -/
theorem c7_findOrphans_iff (services : List Service) (s : Service) :
    s ∈ findOrphans services ↔
      s ∈ services ∧ s.deps = [] ∧
        ∀ t ∈ services, ∀ d ∈ t.deps, d.service ≠ s.id := by
  simp only [findOrphans, List.mem_filter]
  constructor
  · rintro ⟨hmem, hpred⟩
    simp only [Bool.and_eq_true, Bool.not_eq_true', decide_eq_false_iff_not,
      Nat.not_lt, Nat.le_zero, List.length_eq_zero] at hpred
    refine ⟨hmem, hpred.1, ?_⟩
    intro t ht d hd hc
    have hm : (⟨t, d.api, d.description⟩ : RevEntry) ∈
        (mapGet (buildReverseIndex services) s.id).getD [] := by
      rw [← hc]
      exact buildReverseIndexAux_adds services [] t d ht hd
    rw [hpred.2] at hm
    cases hm
  · rintro ⟨hmem, hdeps, hnone⟩
    refine ⟨hmem, ?_⟩
    have h0 : mapGet (buildReverseIndex services) s.id = none :=
      mapGet_buildReverseIndex_of_not_target services s.id hnone
    simp [hdeps, h0]

/-- C7 witness: in the diamond catalog extended with an isolated service,
the isolated service is an orphan. -/
theorem c7_findOrphans_iff_witness :
    ({ id := "iso", name := "Iso" } : Service) ∈
      findOrphans (demoDiamond ++ [{ id := "iso", name := "Iso" }]) := by
  apply (c7_findOrphans_iff _ _).mpr
  refine ⟨by decide, by decide, by decide⟩

/-- If no service carries the queried id, the service-map lookup fails. -/
theorem serviceMapGet_eq_none (services : List Service) (id : String)
    (h : ∀ s ∈ services, s.id ≠ id) : serviceMapGet services id = none := by
  unfold serviceMapGet
  rw [List.find?_eq_none]
  intro s hs
  simpa using h s (List.mem_reverse.mp hs)

/-- C2 counterexample: `ghost` is not the id of any service of `demoGhost`,
yet `resolveDeps` returns a non-empty `dependents` list for it, because
`ghost` occurs as a (dangling) dependency target and therefore has a
reverse-index entry. -/
theorem c2_resolveDeps_unknown_counterexample :
    (∀ s ∈ demoGhost, s.id ≠ "ghost") ∧
    (resolveDeps "ghost" demoGhost 5 none).dependents ≠ [] := by
  constructor
  · decide
  · intro h
    have hids : (resolveDeps "ghost" demoGhost 5 none).dependents.map
        DepNode.id = ["g"] := by decide
    rw [h] at hids
    cases hids

/-- C2 (amended): for an id that is neither a service id nor a dependency
target of any service, `resolveDeps` echoes the id as the name and returns
two empty lists, for every `maxDepth` and `direction`. -/
theorem c2_resolveDeps_unknown (serviceId : String) (services : List Service)
    (maxDepth : Int) (direction : Option String)
    (hid : ∀ s ∈ services, s.id ≠ serviceId)
    (htgt : ∀ s ∈ services, ∀ d ∈ s.deps, d.service ≠ serviceId) :
    resolveDeps serviceId services maxDepth direction =
      { serviceId := serviceId, serviceName := serviceId,
        dependents := [], dependencies := [] } := by
  have hsm : serviceMapGet services serviceId = none :=
    serviceMapGet_eq_none services serviceId hid
  have hrev : mapGet (buildReverseIndex services) serviceId = none :=
    mapGet_buildReverseIndex_of_not_target services serviceId htgt
  have hdown : walkDown serviceId services maxDepth = [] := by
    unfold walkDown
    cases maxDepth.toNat with
    | zero => rfl
    | succ f => simp [walkDownF, hsm]
  have hup : walkUp serviceId (buildReverseIndex services) maxDepth = [] := by
    unfold walkUp
    cases maxDepth.toNat with
    | zero => rfl
    | succ f => simp [walkUpF, hrev]
  unfold resolveDeps
  simp only [hsm, Option.map_none', Option.getD_none, hdown, hup, ite_self]

/-- C2 witness at a concrete unknown id. -/
theorem c2_resolveDeps_unknown_witness :
    resolveDeps "zz" demoGhost 3 none =
      { serviceId := "zz", serviceName := "zz",
        dependents := [], dependencies := [] } :=
  c2_resolveDeps_unknown "zz" demoGhost 3 none (by decide) (by decide)

/-! ## Depth bound of the traversals (C5) -/

theorem heightForest_append (l1 l2 : List DepNode) :
    heightForest (l1 ++ l2) = max (heightForest l1) (heightForest l2) := by
  induction l1 with
  | nil => simp [heightForest]
  | cons n rest ih => simp [heightForest, ih, Nat.max_assoc]

/-- Folding the `walkDown` step over a dependency list keeps the forest
height at most `f + 1` when recursive calls are bounded by `f`. -/
theorem walkDownF_foldl_height (services : List Service) (f : Nat)
    (ih : ∀ id v, heightForest (walkDownF id services f v).1 ≤ f) :
    ∀ (deps : List Dependency) (acc : List DepNode × List String),
      heightForest acc.1 ≤ f + 1 →
      heightForest ((deps.foldl (walkDownStep services f) acc).1) ≤ f + 1 := by
  intro deps
  induction deps with
  | nil => intro acc h; exact h
  | cons dep rest ihd =>
    intro acc h
    rw [List.foldl_cons]
    refine ihd _ ?_
    show heightForest (acc.1 ++ [DepNode.mk dep.service
      (((serviceMapGet services dep.service).map Service.name).getD dep.service)
      dep.api dep.description (walkDownF dep.service services f acc.2).1]) ≤ f + 1
    rw [heightForest_append]
    refine Nat.max_le.mpr ⟨h, ?_⟩
    simp only [heightForest, DepNode.height, Nat.max_zero]
    have := ih dep.service acc.2
    omega

/-- `walkDownF` at fuel 0 returns nothing. -/
theorem walkDownF_zero (id : String) (services : List Service)
    (v : List String) : walkDownF id services 0 v = ([], v) := rfl

/-- One-step unfolding of `walkDownF` at positive fuel. -/
theorem walkDownF_succ (id : String) (services : List Service) (f : Nat)
    (v : List String) :
    walkDownF id services (f + 1) v =
      if v.contains id then ([], v)
      else
        match serviceMapGet services id with
        | none => ([], v ++ [id])
        | some service =>
          service.deps.foldl (walkDownStep services f) ([], v ++ [id]) := rfl

/-- One-step unfolding of `walkUpF` at positive fuel. -/
theorem walkUpF_succ (id : String) (rmap : List (String × List RevEntry))
    (f : Nat) (v : List String) :
    walkUpF id rmap (f + 1) v =
      if v.contains id then ([], v)
      else
        ((mapGet rmap id).getD []).foldl (walkUpStep rmap f)
          ([], v ++ [id]) := rfl

/-- The forest returned by `walkDownF` has height at most the fuel. -/
theorem walkDownF_height_le (services : List Service) :
    ∀ (fuel : Nat) (id : String) (v : List String),
      heightForest (walkDownF id services fuel v).1 ≤ fuel := by
  intro fuel
  induction fuel with
  | zero => intro id v; simp [walkDownF_zero, heightForest]
  | succ f ih =>
    intro id v
    rw [walkDownF_succ]
    by_cases hc : v.contains id = true
    · have hm : id ∈ v := by simpa using hc
      simp [hm, heightForest]
    · rw [if_neg (by simpa using hc)]
      cases hsm : serviceMapGet services id with
      | none => simp [hsm, heightForest]
      | some s =>
        simp only [hsm]
        exact walkDownF_foldl_height services f ih s.deps _ (by simp [heightForest])

/-- C5: `walkDown(id, idx, d)` returns no node at depth greater than `d`
(the forest height is at most `d`), so nodes at depth exactly `d` have
empty children; and any `d ≤ 0`, negative values included, yields no
children at all. -/
theorem c5_walkDown_depth_bound (services : List Service) (id : String)
    (d : Int) :
    heightForest (walkDown id services d) ≤ d.toNat ∧
    (d ≤ 0 → walkDown id services d = []) := by
  constructor
  · exact walkDownF_height_le services d.toNat id []
  · intro hd
    unfold walkDown
    rw [show d.toNat = 0 from Int.toNat_of_nonpos hd]
    rfl

/-- C5 witness: depth 2 bounds the diamond walk, and depth -1 yields no
children at all. -/
theorem c5_walkDown_depth_bound_witness :
    heightForest (walkDown "a" demoDiamond 2) ≤ 2 ∧
    walkDown "a" demoDiamond (-1) = [] :=
  ⟨by simpa using (c5_walkDown_depth_bound demoDiamond "a" 2).1,
   (c5_walkDown_depth_bound demoDiamond "a" (-1)).2 (by decide)⟩

/-! ## Node-count bound of the traversals (C4) -/

theorem sizeForest_append (l1 l2 : List DepNode) :
    sizeForest (l1 ++ l2) = sizeForest l1 + sizeForest l2 := by
  induction l1 with
  | nil => simp [sizeForest]
  | cons n rest ih => simp [sizeForest, ih]; omega

/-- Sum comparison with pointwise domination and extra slack at one
distinguished element. -/
theorem sum_map_le_with_slack {α : Type} (l : List α) (f g : α → Nat)
    (c : Nat) (hpt : ∀ a ∈ l, g a ≤ f a) (x : α) (hx : x ∈ l)
    (hs : g x + c ≤ f x) :
    (l.map g).sum + c ≤ (l.map f).sum := by
  induction l with
  | nil => cases hx
  | cons a t ih =>
    simp only [List.map_cons, List.sum_cons]
    rcases List.mem_cons.mp hx with rfl | hmem
    · have ht : (t.map g).sum ≤ (t.map f).sum :=
        List.sum_le_sum (fun i hi => hpt i (List.mem_cons_of_mem _ hi))
      omega
    · have ha : g a ≤ f a := hpt a (List.mem_cons_self _ _)
      have := ih (fun b hb => hpt b (List.mem_cons_of_mem _ hb)) hmem
      omega

/-- The downward potential only shrinks as the visited set grows. -/
theorem phiDown_mono (services : List Service) (v w : List String)
    (h : ∀ x, x ∈ v → x ∈ w) :
    phiDown services w ≤ phiDown services v := by
  unfold phiDown
  apply List.sum_le_sum
  intro s _
  by_cases hw : s.id ∈ w
  · simp [hw]
  · rw [if_neg hw, if_neg (fun hv => hw (h _ hv))]

/-- Visiting a resolvable id pays for all its dependency edges. -/
theorem phiDown_insert (services : List Service) (v : List String)
    (id : String) (s : Service) (hsm : serviceMapGet services id = some s)
    (hv : id ∉ v) :
    phiDown services (v ++ [id]) + s.deps.length ≤ phiDown services v := by
  obtain ⟨hmem, hid⟩ := serviceMapGet_eq_some hsm
  unfold phiDown
  refine sum_map_le_with_slack _ _ _ _ ?_ s hmem ?_
  · intro t _
    by_cases hw : t.id ∈ v ++ [id]
    · simp [hw]
    · rw [if_neg hw, if_neg (fun hmm => hw (List.mem_append.mpr (Or.inl hmm)))]
  · rw [if_pos (by simp [hid]), if_neg (hid ▸ hv)]
    simp

/-- Folding the `walkDown` step: the nodes produced plus the remaining
potential are covered by the incoming potential plus one node per edge. -/
theorem walkDownF_foldl_size (services : List Service) (f : Nat)
    (ih : ∀ id v, sizeForest (walkDownF id services f v).1 +
      phiDown services (walkDownF id services f v).2 ≤ phiDown services v) :
    ∀ (deps : List Dependency) (acc : List DepNode × List String),
      sizeForest ((deps.foldl (walkDownStep services f) acc).1) +
        phiDown services ((deps.foldl (walkDownStep services f) acc).2) ≤
      sizeForest acc.1 + deps.length + phiDown services acc.2 := by
  intro deps
  induction deps with
  | nil =>
    intro acc
    rw [List.foldl_nil]
    omega
  | cons dep rest ihd =>
    intro acc
    rw [List.foldl_cons]
    have hstep := ihd (walkDownStep services f acc dep)
    have hfst : (walkDownStep services f acc dep).1 =
        acc.1 ++ [DepNode.mk dep.service
          (((serviceMapGet services dep.service).map Service.name).getD dep.service)
          dep.api dep.description (walkDownF dep.service services f acc.2).1] := rfl
    have hsnd : (walkDownStep services f acc dep).2 =
        (walkDownF dep.service services f acc.2).2 := rfl
    rw [hfst, hsnd, sizeForest_append] at hstep
    have hrec := ih dep.service acc.2
    have hone : sizeForest [DepNode.mk dep.service
        (((serviceMapGet services dep.service).map Service.name).getD dep.service)
        dep.api dep.description (walkDownF dep.service services f acc.2).1] =
        1 + sizeForest (walkDownF dep.service services f acc.2).1 := by
      simp [sizeForest, DepNode.size]
    rw [hone] at hstep
    simp only [List.length_cons]
    omega

/-- Potential bound for `walkDownF`: nodes produced plus remaining
potential never exceed the incoming potential. -/
theorem walkDownF_size_le (services : List Service) :
    ∀ (fuel : Nat) (id : String) (v : List String),
      sizeForest (walkDownF id services fuel v).1 +
        phiDown services (walkDownF id services fuel v).2 ≤
      phiDown services v := by
  intro fuel
  induction fuel with
  | zero => intro id v; simp [walkDownF_zero, sizeForest]
  | succ f ih =>
    intro id v
    rw [walkDownF_succ]
    by_cases hc : v.contains id = true
    · have hm : id ∈ v := by simpa using hc
      simp [hm, sizeForest]
    · have hm : id ∉ v := by simpa using hc
      rw [if_neg (by simpa using hc)]
      cases hsm : serviceMapGet services id with
      | none =>
        simp only [sizeForest]
        have := phiDown_mono services v (v ++ [id])
          (fun x hx => List.mem_append.mpr (Or.inl hx))
        omega
      | some s =>
        show sizeForest (List.foldl (walkDownStep services f) ([], v ++ [id]) s.deps).1 +
          phiDown services
            (List.foldl (walkDownStep services f) ([], v ++ [id]) s.deps).2 ≤
          phiDown services v
        have hfold := walkDownF_foldl_size services f ih s.deps ([], v ++ [id])
        have hpay := phiDown_insert services v id s hsm hm
        simp only [sizeForest] at hfold
        omega

/-- A successful `mapGet` returns an entry of the list with the queried
key. -/
theorem mapGet_eq_some_mem {α : Type} (m : List (String × α)) (k : String)
    (l : α) (h : mapGet m k = some l) : (k, l) ∈ m := by
  unfold mapGet at h
  cases hf : m.find? (fun p => p.1 == k) with
  | none => rw [hf] at h; cases h
  | some p =>
    rw [hf] at h
    obtain ⟨k0, v0⟩ := p
    have hp : k0 = k := by simpa using List.find?_some hf
    have hm := List.mem_of_find?_eq_some hf
    have hv : v0 = l := by simpa using h
    subst hp
    subst hv
    exact hm

/-- The upward potential only shrinks as the visited set grows. -/
theorem phiUp_mono (rmap : List (String × List RevEntry)) (v w : List String)
    (h : ∀ x, x ∈ v → x ∈ w) :
    phiUp rmap w ≤ phiUp rmap v := by
  unfold phiUp
  apply List.sum_le_sum
  intro p _
  by_cases hw : p.1 ∈ w
  · simp [hw]
  · rw [if_neg hw, if_neg (fun hv => hw (h _ hv))]

/-- Visiting a key with entries pays for all of them. -/
theorem phiUp_insert (rmap : List (String × List RevEntry)) (v : List String)
    (id : String) (l : List RevEntry) (hsm : mapGet rmap id = some l)
    (hv : id ∉ v) :
    phiUp rmap (v ++ [id]) + l.length ≤ phiUp rmap v := by
  have hmem := mapGet_eq_some_mem rmap id l hsm
  unfold phiUp
  refine sum_map_le_with_slack _ _ _ _ ?_ (id, l) hmem ?_
  · intro p _
    by_cases hw : p.1 ∈ v ++ [id]
    · simp [hw]
    · rw [if_neg hw, if_neg (fun hmm => hw (List.mem_append.mpr (Or.inl hmm)))]
  · rw [if_pos (by simp), if_neg hv]
    simp

/-- Folding the `walkUp` step: potential accounting. -/
theorem walkUpF_foldl_size (rmap : List (String × List RevEntry)) (f : Nat)
    (ih : ∀ id v, sizeForest (walkUpF id rmap f v).1 +
      phiUp rmap (walkUpF id rmap f v).2 ≤ phiUp rmap v) :
    ∀ (deps : List RevEntry) (acc : List DepNode × List String),
      sizeForest ((deps.foldl (walkUpStep rmap f) acc).1) +
        phiUp rmap ((deps.foldl (walkUpStep rmap f) acc).2) ≤
      sizeForest acc.1 + deps.length + phiUp rmap acc.2 := by
  intro deps
  induction deps with
  | nil =>
    intro acc
    rw [List.foldl_nil]
    omega
  | cons dep rest ihd =>
    intro acc
    rw [List.foldl_cons]
    have hstep := ihd (walkUpStep rmap f acc dep)
    have hfst : (walkUpStep rmap f acc dep).1 =
        acc.1 ++ [DepNode.mk dep.service.id dep.service.name
          dep.api dep.description (walkUpF dep.service.id rmap f acc.2).1] := rfl
    have hsnd : (walkUpStep rmap f acc dep).2 =
        (walkUpF dep.service.id rmap f acc.2).2 := rfl
    rw [hfst, hsnd, sizeForest_append] at hstep
    have hrec := ih dep.service.id acc.2
    have hone : sizeForest [DepNode.mk dep.service.id dep.service.name
        dep.api dep.description (walkUpF dep.service.id rmap f acc.2).1] =
        1 + sizeForest (walkUpF dep.service.id rmap f acc.2).1 := by
      simp [sizeForest, DepNode.size]
    rw [hone] at hstep
    simp only [List.length_cons]
    omega

/-- Potential bound for `walkUpF`. -/
theorem walkUpF_size_le (rmap : List (String × List RevEntry)) :
    ∀ (fuel : Nat) (id : String) (v : List String),
      sizeForest (walkUpF id rmap fuel v).1 +
        phiUp rmap (walkUpF id rmap fuel v).2 ≤ phiUp rmap v := by
  intro fuel
  induction fuel with
  | zero => intro id v; simp [walkUpF, sizeForest]
  | succ f ih =>
    intro id v
    rw [walkUpF_succ]
    by_cases hc : v.contains id = true
    · have hm : id ∈ v := by simpa using hc
      simp [hm, sizeForest]
    · have hm : id ∉ v := by simpa using hc
      rw [if_neg (by simpa using hc)]
      cases hsm : mapGet rmap id with
      | none =>
        show sizeForest (List.foldl (walkUpStep rmap f) ([], v ++ [id]) []).1 +
          phiUp rmap (List.foldl (walkUpStep rmap f) ([], v ++ [id]) []).2 ≤
          phiUp rmap v
        rw [List.foldl_nil]
        simp only [sizeForest]
        have := phiUp_mono rmap v (v ++ [id])
          (fun x hx => List.mem_append.mpr (Or.inl hx))
        omega
      | some l =>
        show sizeForest (List.foldl (walkUpStep rmap f) ([], v ++ [id]) l).1 +
          phiUp rmap (List.foldl (walkUpStep rmap f) ([], v ++ [id]) l).2 ≤
          phiUp rmap v
        have hfold := walkUpF_foldl_size rmap f ih l ([], v ++ [id])
        have hpay := phiUp_insert rmap v id l hsm hm
        simp only [sizeForest] at hfold
        omega

/-- Pushing one entry into the reverse map adds exactly one to its size. -/
theorem totalEntries_mapSet_push (m : List (String × List RevEntry))
    (k : String) (e : RevEntry) :
    totalEntries (mapSet m k ((mapGet m k).getD [] ++ [e])) =
      totalEntries m + 1 := by
  induction m with
  | nil => simp [mapSet, mapGet, totalEntries]
  | cons p rest ih =>
    obtain ⟨k0, l0⟩ := p
    by_cases hk : k0 = k
    · subst hk
      rw [show mapGet ((k0, l0) :: rest) k0 = some l0 from by
        rw [mapGet_cons, if_pos rfl]]
      show totalEntries (if k0 = k0 then (k0, (some l0).getD [] ++ [e]) :: rest
        else (k0, l0) :: mapSet rest k0 ((some l0).getD [] ++ [e])) = _
      rw [if_pos rfl]
      simp [totalEntries]
      omega
    · rw [mapGet_cons, if_neg hk]
      have hms : mapSet ((k0, l0) :: rest) k ((mapGet rest k).getD [] ++ [e]) =
          if k0 = k then (k, (mapGet rest k).getD [] ++ [e]) :: rest
          else (k0, l0) :: mapSet rest k ((mapGet rest k).getD [] ++ [e]) := rfl
      rw [hms, if_neg hk]
      simp only [totalEntries, List.map_cons, List.sum_cons] at ih ⊢
      omega

/-- `insertDeps` adds one reverse entry per dependency. -/
theorem totalEntries_insertDeps (s : Service) (deps : List Dependency)
    (rev : List (String × List RevEntry)) :
    totalEntries (insertDeps s deps rev) = totalEntries rev + deps.length := by
  induction deps generalizing rev with
  | nil => rfl
  | cons dep rest ih =>
    show totalEntries (insertDeps s rest _) = _
    rw [ih, totalEntries_mapSet_push]
    simp only [List.length_cons]
    omega

/-- The reverse-index loop adds one entry per dependency of each service. -/
theorem totalEntries_buildReverseIndexAux (services : List Service)
    (rev : List (String × List RevEntry)) :
    totalEntries (buildReverseIndexAux services rev) =
      totalEntries rev + totalDeps services := by
  induction services generalizing rev with
  | nil => simp [buildReverseIndexAux, totalDeps]
  | cons s rest ih =>
    show totalEntries (buildReverseIndexAux rest (insertDeps s s.deps rev)) = _
    rw [ih, totalEntries_insertDeps]
    simp only [totalDeps, List.map_cons, List.sum_cons]
    omega

/-- The reverse index has exactly one entry per declared dependency. -/
theorem totalEntries_buildReverseIndex (services : List Service) :
    totalEntries (buildReverseIndex services) = totalDeps services := by
  have := totalEntries_buildReverseIndexAux services []
  simpa [totalEntries] using this

/-- The empty-visited downward potential is the total edge count. -/
theorem phiDown_nil (services : List Service) :
    phiDown services [] = totalDeps services := by
  unfold phiDown totalDeps
  congr 1

/-- The empty-visited upward potential is the reverse-index size. -/
theorem phiUp_nil (rmap : List (String × List RevEntry)) :
    phiUp rmap [] = totalEntries rmap := by
  unfold phiUp totalEntries
  congr 1

/-- C4: `walkDown` and `walkUp` (over the reverse index of the same
service set) terminate with a finite forest for every service set — cyclic
ones of any length included — and every integer `maxDepth`: the number of
nodes produced is bounded by the total number of declared dependency
edges, independently of `maxDepth`. -/
theorem c4_walk_terminates (services : List Service) (id : String)
    (maxDepth : Int) :
    sizeForest (walkDown id services maxDepth) ≤ totalDeps services ∧
    sizeForest (walkUp id (buildReverseIndex services) maxDepth) ≤
      totalDeps services := by
  constructor
  · have h := walkDownF_size_le services maxDepth.toNat id []
    rw [phiDown_nil] at h
    unfold walkDown
    omega
  · have h := walkUpF_size_le (buildReverseIndex services) maxDepth.toNat id []
    rw [phiUp_nil, totalEntries_buildReverseIndex] at h
    unfold walkUp
    omega

/-! ## Diamond behaviour of the traversals (C1) -/

theorem serviceMapGet_nil (id : String) :
    serviceMapGet [] id = none := rfl

/-- Cons step of the last-match-wins service lookup. -/
theorem serviceMapGet_cons (s : Service) (rest : List Service) (id : String) :
    serviceMapGet (s :: rest) id =
      match serviceMapGet rest id with
      | some t => some t
      | none => if s.id = id then some s else none := by
  unfold serviceMapGet
  rw [List.reverse_cons, List.find?_append]
  cases h : rest.reverse.find? (fun s => s.id == id) with
  | some t => simp [h]
  | none =>
    by_cases hs : s.id = id
    · simp [h, List.find?, hs]
    · simp only [h, Option.none_orElse, List.find?, if_neg hs]
      rw [show (s.id == id) = false by simpa using hs]
      rfl

/-- C1 counterexample: in the concrete diamond A → B,C; B,C → D; D → E
(with maxDepth 10), the shared node `d` appears under BOTH parents `b` and
`c` — refuting "appears exactly once ... and does not appear under the
other parent".  (It is expanded only under `b`, the parent enumerated
first.) -/
theorem c1_walkDown_diamond_counterexample :
    (walkDown "a" demoDiamond 10).map
        (fun n => (n.id, n.children.map (fun m => (m.id, m.children.map DepNode.id)))) =
      [("b", [("d", ["e"])]), ("c", [("d", [])])] := by
  decide

theorem mapGet_nil {α : Type} (k : String) :
    mapGet ([] : List (String × α)) k = none := rfl

/-- C1 (amended): in a diamond A → B,C; B,C → D (with D → E exposing the
shape), `walkDown` lists the shared node D under BOTH parents; its
children are expanded only under the first-enumerated parent B, while
under C it appears with empty children.  `walkUp` on the mirrored diamond
behaves symmetrically. -/
theorem c1_walk_diamond (ida idb idc idd ide na nb nc nd ne' : String)
    (maxDepth : Int) (hnd : [ida, idb, idc, idd, ide].Nodup)
    (hmd : 4 ≤ maxDepth) :
    walkDown ida
      [{ id := ida, name := na,
         dependsOn := some [⟨idb, none, none⟩, ⟨idc, none, none⟩] },
       { id := idb, name := nb, dependsOn := some [⟨idd, none, none⟩] },
       { id := idc, name := nc, dependsOn := some [⟨idd, none, none⟩] },
       { id := idd, name := nd, dependsOn := some [⟨ide, none, none⟩] },
       { id := ide, name := ne' }] maxDepth =
      [DepNode.mk idb nb none none
        [DepNode.mk idd nd none none [DepNode.mk ide ne' none none []]],
       DepNode.mk idc nc none none [DepNode.mk idd nd none none []]] ∧
    walkUp ida
      (buildReverseIndex
        [{ id := ida, name := na },
         { id := idb, name := nb, dependsOn := some [⟨ida, none, none⟩] },
         { id := idc, name := nc, dependsOn := some [⟨ida, none, none⟩] },
         { id := idd, name := nd,
           dependsOn := some [⟨idb, none, none⟩, ⟨idc, none, none⟩] },
         { id := ide, name := ne', dependsOn := some [⟨idd, none, none⟩] }])
      maxDepth =
      [DepNode.mk idb nb none none
        [DepNode.mk idd nd none none [DepNode.mk ide ne' none none []]],
       DepNode.mk idc nc none none [DepNode.mk idd nd none none []]] := by
  simp only [List.nodup_cons, List.mem_cons, List.mem_singleton,
    List.not_mem_nil, or_false, not_or] at hnd
  obtain ⟨⟨hab, hac, had, hae⟩, ⟨hbc, hbd, hbe⟩, ⟨hcd, hce⟩, hde, -⟩ := hnd
  obtain ⟨g, hg⟩ : ∃ g, maxDepth.toNat = g + 1 + 1 + 1 + 1 :=
    ⟨maxDepth.toNat - 4, by omega⟩
  constructor
  · unfold walkDown
    rw [hg]
    simp [walkDownF_succ, walkDownStep, serviceMapGet_cons, serviceMapGet_nil,
      Service.deps, List.foldl_cons, List.foldl_nil,
      hab, hac, had, hae, hbc, hbd, hbe, hcd, hce, hde,
      Ne.symm hab, Ne.symm hac, Ne.symm had, Ne.symm hae, Ne.symm hbc,
      Ne.symm hbd, Ne.symm hbe, Ne.symm hcd, Ne.symm hce, Ne.symm hde]
  · unfold walkUp
    rw [hg]
    simp [walkUpF_succ, walkUpStep, buildReverseIndex, buildReverseIndexAux,
      insertDeps, mapSet, mapGet_cons, mapGet_nil, Service.deps,
      hab, hac, had, hae, hbc, hbd, hbe, hcd, hce, hde,
      Ne.symm hab, Ne.symm hac, Ne.symm had, Ne.symm hae, Ne.symm hbc,
      Ne.symm hbd, Ne.symm hbe, Ne.symm hcd, Ne.symm hce, Ne.symm hde]

/-- C1 witness at concrete ids and depth. -/
theorem c1_walk_diamond_witness :
    walkDown "a"
      [{ id := "a", name := "A",
         dependsOn := some [⟨"b", none, none⟩, ⟨"c", none, none⟩] },
       { id := "b", name := "B", dependsOn := some [⟨"d", none, none⟩] },
       { id := "c", name := "C", dependsOn := some [⟨"d", none, none⟩] },
       { id := "d", name := "D", dependsOn := some [⟨"e", none, none⟩] },
       { id := "e", name := "E" }] 10 =
      [DepNode.mk "b" "B" none none
        [DepNode.mk "d" "D" none none [DepNode.mk "e" "E" none none []]],
       DepNode.mk "c" "C" none none [DepNode.mk "d" "D" none none []]] :=
  (c1_walk_diamond "a" "b" "c" "d" "e" "A" "B" "C" "D" "E" 10
    (by decide) (by decide)).1

/-! ## Cycle checker invariants (C3, C8) -/

/-- All ids on the ancestor path belong to known services. -/
def ancOK (services : List Service) (anc : List String) : Prop :=
  ∀ x ∈ anc, ∃ t ∈ services, t.id = x

/-- Run invariant of the cycle checker: reported keys are distinct, findings
and keys are produced in lockstep, every finding is a `circular_dependency`,
and every reported key is the sorted pair of an origin service id and an
on-path service id, with a matching finding naming that origin. -/
def CInv (services : List Service) (st : List LintResult × List String) : Prop :=
  st.2.Nodup ∧ st.1.length = st.2.length ∧
  (∀ r ∈ st.1, r.type = "circular_dependency") ∧
  (∀ k ∈ st.2, ∃ o i r, o ∈ services ∧ (∃ t ∈ services, t.id = i) ∧
    r ∈ st.1 ∧ r.entity = o.name ∧ k = sortKey o.id i)

/-- Non-dependent unfolding of `circWalk`. -/
theorem circWalk_eq (services : List Service) (origin : Service) (id : String)
    (ancestors : List String) (st : List LintResult × List String) :
    circWalk services origin id ancestors st =
      if ancestors.contains id then
        if st.2.contains (sortKey origin.id id) then st
        else (st.1 ++ [circFinding services origin id],
              st.2 ++ [sortKey origin.id id])
      else
        match serviceMapGet services id with
        | none => st
        | some s => circWalkDeps services origin s.deps (ancestors ++ [id]) st := by
  by_cases h : id ∈ ancestors
  · rw [circWalk]
    simp [h]
  · rw [circWalk]
    cases hm : serviceMapGet services id with
    | none => simp [h, hm]
    | some s => simp [h, hm]

theorem circWalkDeps_nil (services : List Service) (origin : Service)
    (anc : List String) (st : List LintResult × List String) :
    circWalkDeps services origin [] anc st = st := by rw [circWalkDeps]

theorem circWalkDeps_cons (services : List Service) (origin : Service)
    (dep : Dependency) (rest : List Dependency) (anc : List String)
    (st : List LintResult × List String) :
    circWalkDeps services origin (dep :: rest) anc st =
      circWalkDeps services origin rest anc
        (circWalk services origin dep.service anc st) := by rw [circWalkDeps]

/-- Expanding an unvisited, resolvable id walks its dependency list. -/
theorem circWalk_expand (services : List Service) (origin : Service)
    (id : String) (anc : List String) (st : List LintResult × List String)
    (s : Service) (hc : ¬ (anc.contains id = true))
    (hsm : serviceMapGet services id = some s) :
    circWalk services origin id anc st =
      circWalkDeps services origin s.deps (anc ++ [id]) st := by
  rw [circWalk_eq, if_neg hc, hsm]

/-- The cycle walk only appends to the findings and key lists. -/
theorem circWalk_mono (services : List Service) (origin : Service) :
    ∀ (id : String) (anc : List String) (st : List LintResult × List String),
      st.1 <+: (circWalk services origin id anc st).1 ∧
      st.2 <+: (circWalk services origin id anc st).2 :=
  circWalk.induct services origin
    (fun id anc st => st.1 <+: (circWalk services origin id anc st).1 ∧
      st.2 <+: (circWalk services origin id anc st).2)
    (fun deps anc st => st.1 <+: (circWalkDeps services origin deps anc st).1 ∧
      st.2 <+: (circWalkDeps services origin deps anc st).2)
    (by
      intro id anc st h1 h2
      rw [circWalk_eq, if_pos h1, if_pos h2]
      exact ⟨List.prefix_rfl, List.prefix_rfl⟩)
    (by
      intro id anc st h1 h2
      rw [circWalk_eq, if_pos h1, if_neg h2]
      exact ⟨List.prefix_append _ _, List.prefix_append _ _⟩)
    (by
      intro id anc st h1 h2
      rw [circWalk_eq, if_neg h1, h2]
      exact ⟨List.prefix_rfl, List.prefix_rfl⟩)
    (by
      intro id anc st h1 s h2 ih
      rw [circWalk_eq, if_neg h1, h2]
      exact ih)
    (by
      intro anc st
      rw [circWalkDeps_nil]
      exact ⟨List.prefix_rfl, List.prefix_rfl⟩)
    (by
      intro anc st dep rest ih1 ih2
      rw [circWalkDeps_cons]
      exact ⟨ih1.1.trans ih2.1, ih1.2.trans ih2.2⟩)

/-- The cycle walk preserves the run invariant. -/
theorem circWalk_inv (services : List Service) (origin : Service)
    (horigin : origin ∈ services) :
    ∀ (id : String) (anc : List String) (st : List LintResult × List String),
      ancOK services anc → CInv services st →
      CInv services (circWalk services origin id anc st) :=
  circWalk.induct services origin
    (fun id anc st => ancOK services anc → CInv services st →
      CInv services (circWalk services origin id anc st))
    (fun deps anc st => ancOK services anc → CInv services st →
      CInv services (circWalkDeps services origin deps anc st))
    (by
      intro id anc st h1 h2 _ hinv
      rwa [circWalk_eq, if_pos h1, if_pos h2])
    (by
      intro id anc st h1 h2 hanc hinv
      rw [circWalk_eq, if_pos h1, if_neg h2]
      obtain ⟨hnd, hlen, htype, hkey⟩ := hinv
      have hknotin : sortKey origin.id id ∉ st.2 := by simpa using h2
      refine ⟨?_, ?_, ?_, ?_⟩
      · rw [List.nodup_append]
        exact ⟨hnd, List.nodup_singleton _,
          by simpa [List.disjoint_singleton] using hknotin⟩
      · simp [hlen]
      · intro r hr
        rcases List.mem_append.mp hr with h | h
        · exact htype r h
        · rw [List.mem_singleton.mp h]
          rfl
      · intro k hk
        rcases List.mem_append.mp hk with h | h
        · obtain ⟨o, i, r, ho, hi, hr, hent, hkeq⟩ := hkey k h
          exact ⟨o, i, r, ho, hi, List.mem_append.mpr (Or.inl hr), hent, hkeq⟩
        · rw [List.mem_singleton.mp h]
          refine ⟨origin, id, circFinding services origin id, horigin,
            hanc id (by simpa using h1), by simp, rfl, rfl⟩)
    (by
      intro id anc st h1 h2 _ hinv
      rwa [circWalk_eq, if_neg h1, h2])
    (by
      intro id anc st h1 s h2 ih hanc hinv
      rw [circWalk_eq, if_neg h1, h2]
      refine ih ?_ hinv
      intro x hx
      rcases List.mem_append.mp hx with h | h
      · exact hanc x h
      · rw [List.mem_singleton.mp h]
        obtain ⟨hmem, hid⟩ := serviceMapGet_eq_some h2
        exact ⟨s, hmem, hid⟩)
    (by
      intro anc st _ hinv
      rwa [circWalkDeps_nil])
    (by
      intro anc st dep rest ih1 ih2 hanc hinv
      rw [circWalkDeps_cons]
      exact ih2 hanc (ih1 hanc hinv))

theorem circWalkDeps_mono (services : List Service) (origin : Service) :
    ∀ (deps : List Dependency) (anc : List String)
      (st : List LintResult × List String),
      st.1 <+: (circWalkDeps services origin deps anc st).1 ∧
      st.2 <+: (circWalkDeps services origin deps anc st).2 := by
  intro deps
  induction deps with
  | nil =>
    intro anc st
    rw [circWalkDeps_nil]
    exact ⟨List.prefix_rfl, List.prefix_rfl⟩
  | cons dep rest ih =>
    intro anc st
    rw [circWalkDeps_cons]
    have h1 := circWalk_mono services origin dep.service anc st
    have h2 := ih anc (circWalk services origin dep.service anc st)
    exact ⟨h1.1.trans h2.1, h1.2.trans h2.2⟩

theorem circWalkDeps_inv (services : List Service) (origin : Service)
    (horigin : origin ∈ services) :
    ∀ (deps : List Dependency) (anc : List String)
      (st : List LintResult × List String),
      ancOK services anc → CInv services st →
      CInv services (circWalkDeps services origin deps anc st) := by
  intro deps
  induction deps with
  | nil =>
    intro anc st _ hinv
    rwa [circWalkDeps_nil]
  | cons dep rest ih =>
    intro anc st hanc hinv
    rw [circWalkDeps_cons]
    exact ih anc _ hanc
      (circWalk_inv services origin horigin dep.service anc st hanc hinv)

theorem circWalkDeps_append (services : List Service) (origin : Service)
    (l1 l2 : List Dependency) (anc : List String) :
    ∀ (st : List LintResult × List String),
      circWalkDeps services origin (l1 ++ l2) anc st =
        circWalkDeps services origin l2 anc
          (circWalkDeps services origin l1 anc st) := by
  induction l1 with
  | nil => intro st; rw [List.nil_append, circWalkDeps_nil]
  | cons dep rest ih =>
    intro st
    rw [List.cons_append, circWalkDeps_cons, circWalkDeps_cons, ih]

/-- Reaching an on-path id always leaves a `circular_dependency` finding in
the state (either just pushed, or already there from the reported key). -/
theorem circWalk_hit (services : List Service) (origin : Service) (id : String)
    (anc : List String) (st : List LintResult × List String)
    (h1 : anc.contains id = true) (hinv : CInv services st) :
    ∃ r ∈ (circWalk services origin id anc st).1,
      r.type = "circular_dependency" := by
  rw [circWalk_eq, if_pos h1]
  by_cases h2 : st.2.contains (sortKey origin.id id) = true
  · rw [if_pos h2]
    have hk : sortKey origin.id id ∈ st.2 := by simpa using h2
    obtain ⟨o, i, r, _, _, hr, _, _⟩ := hinv.2.2.2 _ hk
    exact ⟨r, hr, hinv.2.2.1 r hr⟩
  · rw [if_neg h2]
    exact ⟨circFinding services origin id, by simp, rfl⟩

/-- With duplicate-free ids, looking up a member service returns it. -/
theorem serviceMapGet_self (services : List Service)
    (hnd : (services.map Service.id).Nodup) (s : Service) (hs : s ∈ services) :
    serviceMapGet services s.id = some s := by
  cases hf : serviceMapGet services s.id with
  | none =>
    exfalso
    unfold serviceMapGet at hf
    rw [List.find?_eq_none] at hf
    exact absurd (by simp : (s.id == s.id) = true)
      (by simpa using hf s (List.mem_reverse.mpr hs))
  | some t =>
    obtain ⟨ht, hid⟩ := serviceMapGet_eq_some hf
    rw [List.inj_on_of_nodup_map hnd ht hs (by rw [hid])]

/-- One origin iteration of `findCircularDeps`. -/
def circOuterStep (services : List Service)
    (st : List LintResult × List String) (service : Service) :
    List LintResult × List String :=
  circWalkDeps services service
    (((serviceMapGet services service.id).map Service.deps).getD [])
    [service.id] st

theorem findCircularDepsAux_eq (services : List Service) :
    findCircularDepsAux services =
      services.foldl (circOuterStep services) ([], []) := rfl

theorem circOuter_foldl_inv (services : List Service) :
    ∀ (l : List Service), (∀ t ∈ l, t ∈ services) →
      ∀ st, CInv services st →
        CInv services (l.foldl (circOuterStep services) st) := by
  intro l
  induction l with
  | nil => intro _ st hinv; exact hinv
  | cons t rest ih =>
    intro hl st hinv
    rw [List.foldl_cons]
    refine ih (fun u hu => hl u (List.mem_cons_of_mem _ hu)) _ ?_
    have ht : t ∈ services := hl t (List.mem_cons_self _ _)
    refine circWalkDeps_inv services t ht _ _ _ ?_ hinv
    intro x hx
    rw [List.mem_singleton.mp hx]
    exact ⟨t, ht, rfl⟩

theorem circOuter_foldl_mono (services : List Service) :
    ∀ (l : List Service) (st : List LintResult × List String),
      st.1 <+: (l.foldl (circOuterStep services) st).1 := by
  intro l
  induction l with
  | nil => intro st; exact List.prefix_rfl
  | cons t rest ih =>
    intro st
    rw [List.foldl_cons]
    exact ((circWalkDeps_mono services t _ _ st).1).trans (ih _)

theorem exists_finding_of_prefix {l1 l2 : List LintResult}
    {P : LintResult → Prop} (h : l1 <+: l2) (hc : ∃ r ∈ l1, P r) :
    ∃ r ∈ l2, P r := by
  obtain ⟨r, hr, ht⟩ := hc
  exact ⟨r, h.subset hr, ht⟩

theorem cinv_init (services : List Service) :
    CInv services ([], []) := by
  refine ⟨List.nodup_nil, rfl, ?_, ?_⟩ <;> intro x hx <;> cases hx

/-- A mutual dependency between two distinct services (with unique ids)
leaves at least one `circular_dependency` finding. -/
theorem findCircularDeps_mutual_cycle (services : List Service)
    (s1 s2 : Service) (hnd : (services.map Service.id).Nodup)
    (hs1 : s1 ∈ services) (hs2 : s2 ∈ services) (hne : s1.id ≠ s2.id)
    (hd1 : ∃ d ∈ s1.deps, d.service = s2.id)
    (hd2 : ∃ d ∈ s2.deps, d.service = s1.id) :
    ∃ r ∈ findCircularDeps services, r.type = "circular_dependency" := by
  obtain ⟨d1, hd1m, hd1t⟩ := hd1
  obtain ⟨d2, hd2m, hd2t⟩ := hd2
  obtain ⟨p1, p2, hsplit⟩ := List.append_of_mem hs1
  obtain ⟨l1, l2, hsplit1⟩ := List.append_of_mem hd1m
  obtain ⟨l1', l2', hsplit2⟩ := List.append_of_mem hd2m
  have hst1 : CInv services (p1.foldl (circOuterStep services) ([], [])) := by
    refine circOuter_foldl_inv services p1 ?_ _ (cinv_init services)
    intro t ht
    rw [hsplit]
    exact List.mem_append.mpr (Or.inl ht)
  set st1 := p1.foldl (circOuterStep services) ([], []) with hst1def
  have hrun : findCircularDepsAux services =
      p2.foldl (circOuterStep services) (circOuterStep services st1 s1) := by
    rw [findCircularDepsAux_eq,
      show services.foldl (circOuterStep services) ([], []) =
        (p1 ++ s1 :: p2).foldl (circOuterStep services) ([], []) from by
          rw [← hsplit],
      List.foldl_append, List.foldl_cons]
  have hdeps : ((serviceMapGet services s1.id).map Service.deps).getD [] =
      s1.deps := by
    rw [serviceMapGet_self services hnd s1 hs1]
    rfl
  have hancOK1 : ancOK services [s1.id] := by
    intro x hx
    rw [List.mem_singleton.mp hx]
    exact ⟨s1, hs1, rfl⟩
  have hstA : CInv services (circWalkDeps services s1 l1 [s1.id] st1) :=
    circWalkDeps_inv services s1 hs1 l1 [s1.id] st1 hancOK1 hst1
  set stA := circWalkDeps services s1 l1 [s1.id] st1 with hstAdef
  have houter : circOuterStep services st1 s1 =
      circWalkDeps services s1 l2 [s1.id]
        (circWalk services s1 d1.service [s1.id] stA) := by
    rw [circOuterStep, hdeps, hsplit1, circWalkDeps_append, circWalkDeps_cons]
  have hwalk : circWalk services s1 d1.service [s1.id] stA =
      circWalkDeps services s1 l2' [s1.id, s2.id]
        (circWalk services s1 d2.service [s1.id, s2.id]
          (circWalkDeps services s1 l1' [s1.id, s2.id] stA)) := by
    rw [hd1t,
      circWalk_expand services s1 s2.id [s1.id] stA s2
        (by simpa using fun hc => hne hc.symm)
        (serviceMapGet_self services hnd s2 hs2),
      hsplit2, circWalkDeps_append, circWalkDeps_cons]
    rfl
  have hancOK2 : ancOK services [s1.id, s2.id] := by
    intro x hx
    rcases List.mem_cons.mp hx with rfl | hx2
    · exact ⟨s1, hs1, rfl⟩
    · rw [List.mem_singleton.mp hx2]
      exact ⟨s2, hs2, rfl⟩
  have hstB : CInv services (circWalkDeps services s1 l1' [s1.id, s2.id] stA) :=
    circWalkDeps_inv services s1 hs1 l1' [s1.id, s2.id] stA hancOK2 hstA
  have hhit : ∃ r ∈ (circWalk services s1 d2.service [s1.id, s2.id]
      (circWalkDeps services s1 l1' [s1.id, s2.id] stA)).1,
      r.type = "circular_dependency" := by
    rw [hd2t]
    exact circWalk_hit services s1 s1.id [s1.id, s2.id] _ (by simp) hstB
  have h1 := exists_finding_of_prefix
    (circWalkDeps_mono services s1 l2' [s1.id, s2.id] _).1 hhit
  rw [← hwalk] at h1
  have h2 := exists_finding_of_prefix
    (circWalkDeps_mono services s1 l2 [s1.id] _).1 h1
  rw [← houter] at h2
  have h3 := exists_finding_of_prefix (circOuter_foldl_mono services p2 _) h2
  rw [← hrun] at h3
  exact h3

/-- C3: two mutually dependent services (in a catalog with unique ids)
give at least one `circular_dependency` finding; and for EVERY input, the
reported dedup keys are pairwise distinct with exactly one finding per
reported key — never more than one finding per unordered (origin,
detection) pair — and every finding of the checker is a
`circular_dependency`. -/
theorem c3_findCircularDeps (services : List Service) :
    ((services.map Service.id).Nodup →
      ∀ s1 ∈ services, ∀ s2 ∈ services, s1.id ≠ s2.id →
      (∃ d ∈ s1.deps, d.service = s2.id) →
      (∃ d ∈ s2.deps, d.service = s1.id) →
      ∃ r ∈ findCircularDeps services, r.type = "circular_dependency") ∧
    ((findCircularDepsAux services).2.Nodup ∧
      (findCircularDeps services).length =
        (findCircularDepsAux services).2.length ∧
      ∀ r ∈ findCircularDeps services, r.type = "circular_dependency") := by
  constructor
  · intro hnd s1 hs1 s2 hs2 hne hd1 hd2
    exact findCircularDeps_mutual_cycle services s1 s2 hnd hs1 hs2 hne hd1 hd2
  · have h := circOuter_foldl_inv services services (fun t ht => ht)
      ([], []) (cinv_init services)
    rw [← findCircularDepsAux_eq] at h
    exact ⟨h.1, h.2.1, h.2.2.1⟩

/-- C3 witness on the concrete 2-cycle catalog. -/
theorem c3_findCircularDeps_witness :
    ∃ r ∈ findCircularDeps demoPair, r.type = "circular_dependency" :=
  (c3_findCircularDeps demoPair).1 (by decide)
    { id := "s1", name := "S1", dependsOn := some [⟨"s2", none, none⟩] }
    (by decide)
    { id := "s2", name := "S2", dependsOn := some [⟨"s1", none, none⟩] }
    (by decide) (by decide) (by decide) (by decide)

/-- Splitting a list at a marker absent from both prefixes is unique. -/
theorem colon_split (c : Char) : ∀ (l1 m1 l2 m2 : List Char), c ∉ l1 → c ∉ m1 →
    l1 ++ c :: l2 = m1 ++ c :: m2 → l1 = m1 ∧ l2 = m2 := by
  intro l1
  induction l1 with
  | nil =>
    intro m1 l2 m2 _ hm1 h
    cases m1 with
    | nil => simpa using h
    | cons b m1' =>
      rw [List.nil_append, List.cons_append, List.cons_eq_cons] at h
      rw [List.mem_cons, not_or] at hm1
      exact absurd h.1 hm1.1
  | cons x l1' ih =>
    intro m1 l2 m2 hl1 hm1 h
    rw [List.mem_cons, not_or] at hl1
    cases m1 with
    | nil =>
      rw [List.cons_append, List.nil_append, List.cons_eq_cons] at h
      exact absurd h.1.symm hl1.1
    | cons b m1' =>
      rw [List.mem_cons, not_or] at hm1
      rw [List.cons_append, List.cons_append, List.cons_eq_cons] at h
      obtain ⟨rfl, h2⟩ := h
      obtain ⟨he, h3⟩ := ih m1' l2 m2 hl1.2 hm1.2 h2
      exact ⟨by rw [he], h3⟩

/-- A `":"`-joined pair of colon-free left components determines both
components. -/
theorem colon_append_inj (x y a b : String)
    (hx : (':' : Char) ∉ x.data) (ha : (':' : Char) ∉ a.data)
    (h : x ++ ":" ++ y = a ++ ":" ++ b) : x = a ∧ y = b := by
  have hd : x.data ++ ':' :: y.data = a.data ++ ':' :: b.data := by
    have := congrArg String.data h
    simpa [String.data_append] using this
  obtain ⟨h1, h2⟩ := colon_split ':' x.data a.data y.data b.data hx ha hd
  constructor
  · cases x; cases a
    exact congrArg String.mk h1
  · cases y; cases b
    exact congrArg String.mk h2

theorem sortKey_self_eq (a : String) : sortKey a a = a ++ ":" ++ a := by
  rw [sortKey, if_pos le_rfl]

/-- Reaching the origin's own id leaves a `circular_dependency` finding
naming the origin, provided ids are unique and colon-free. -/
theorem circWalk_hit_self (services : List Service) (a : Service)
    (anc : List String) (st : List LintResult × List String)
    (hnd : (services.map Service.id).Nodup)
    (hcolon : ∀ s ∈ services, (':' : Char) ∉ s.id.data)
    (ha : a ∈ services)
    (h1 : anc.contains a.id = true) (hinv : CInv services st) :
    ∃ r ∈ (circWalk services a a.id anc st).1,
      r.type = "circular_dependency" ∧ r.entity = a.name := by
  rw [circWalk_eq, if_pos h1]
  by_cases h2 : st.2.contains (sortKey a.id a.id) = true
  · rw [if_pos h2]
    have hk : sortKey a.id a.id ∈ st.2 := by simpa using h2
    obtain ⟨o, i, r, ho, ⟨t, htmem, hti⟩, hr, hent, hkeq⟩ := hinv.2.2.2 _ hk
    rw [sortKey_self_eq] at hkeq
    have hoa : o.id = a.id := by
      rw [sortKey] at hkeq
      by_cases hle : o.id ≤ i
      · rw [if_pos hle] at hkeq
        exact (colon_append_inj o.id i a.id a.id (hcolon o ho)
          (hcolon a ha) hkeq.symm).1
      · rw [if_neg hle] at hkeq
        exact (colon_append_inj i o.id a.id a.id (hti ▸ hcolon t htmem)
          (hcolon a ha) hkeq.symm).2
    have hoeq : o = a := List.inj_on_of_nodup_map hnd ho ha hoa
    exact ⟨r, hr, hinv.2.2.1 r hr, hoeq ▸ hent⟩
  · rw [if_neg h2]
    exact ⟨circFinding services a a.id, by simp, rfl, rfl⟩

/-- C8 counterexample: `demoColon`'s service `n3` (id `c:c`) depends on
itself, yet `findCircularDeps` reports no finding for it: the key
`"c:c:c:c"` of the distinct pair (origin `c`, detection `c:c:c`) was
reported first and the dedup key join is ambiguous for colon-bearing ids. -/
theorem c8_colon_counterexample :
    (∃ d ∈ (⟨"c:c", "n3", none, none,
        some [⟨"c:c", none, none⟩]⟩ : Service).deps,
      d.service = "c:c") ∧
    (⟨"c:c", "n3", none, none,
        some [⟨"c:c", none, none⟩]⟩ : Service) ∈ demoColon ∧
    ∀ r ∈ findCircularDeps demoColon, ¬ (r.entity = "n3") := by
  refine ⟨by decide, by decide, ?_⟩
  have hmap : (findCircularDeps demoColon).map LintResult.entity =
      ["n1", "n2"] := by
    simp [findCircularDeps, findCircularDepsAux_eq, circOuterStep,
      circWalkDeps_cons, circWalkDeps_nil, circWalk_eq, serviceMapGet_cons,
      serviceMapGet_nil, Service.deps, sortKey, circFinding, demoColon]
  intro r hr hent
  have hmem : r.entity ∈ (findCircularDeps demoColon).map LintResult.entity :=
    List.mem_map_of_mem _ hr
  rw [hmap, hent] at hmem
  simp at hmem

/-- C8 (amended): in a catalog with unique, colon-free service ids, a
self-dependency of `a` is detected by the ancestor-set DFS and yields a
`circular_dependency` finding for `a`. -/
theorem c8_findCircularDeps_selfdep (services : List Service) (a : Service)
    (hnd : (services.map Service.id).Nodup)
    (hcolon : ∀ s ∈ services, (':' : Char) ∉ s.id.data)
    (ha : a ∈ services) (hd : ∃ d ∈ a.deps, d.service = a.id) :
    ∃ r ∈ findCircularDeps services,
      r.type = "circular_dependency" ∧ r.entity = a.name := by
  obtain ⟨d1, hd1m, hd1t⟩ := hd
  obtain ⟨p1, p2, hsplit⟩ := List.append_of_mem ha
  obtain ⟨l1, l2, hsplit1⟩ := List.append_of_mem hd1m
  have hst1 : CInv services (p1.foldl (circOuterStep services) ([], [])) := by
    refine circOuter_foldl_inv services p1 ?_ _ (cinv_init services)
    intro t ht
    rw [hsplit]
    exact List.mem_append.mpr (Or.inl ht)
  set st1 := p1.foldl (circOuterStep services) ([], []) with hst1def
  have hrun : findCircularDepsAux services =
      p2.foldl (circOuterStep services) (circOuterStep services st1 a) := by
    rw [findCircularDepsAux_eq,
      show services.foldl (circOuterStep services) ([], []) =
        (p1 ++ a :: p2).foldl (circOuterStep services) ([], []) from by
          rw [← hsplit],
      List.foldl_append, List.foldl_cons]
  have hdeps : ((serviceMapGet services a.id).map Service.deps).getD [] =
      a.deps := by
    rw [serviceMapGet_self services hnd a ha]
    rfl
  have hancOK1 : ancOK services [a.id] := by
    intro x hx
    rw [List.mem_singleton.mp hx]
    exact ⟨a, ha, rfl⟩
  have hstA : CInv services (circWalkDeps services a l1 [a.id] st1) :=
    circWalkDeps_inv services a ha l1 [a.id] st1 hancOK1 hst1
  set stA := circWalkDeps services a l1 [a.id] st1 with hstAdef
  have houter : circOuterStep services st1 a =
      circWalkDeps services a l2 [a.id]
        (circWalk services a d1.service [a.id] stA) := by
    rw [circOuterStep, hdeps, hsplit1, circWalkDeps_append, circWalkDeps_cons]
  have hhit : ∃ r ∈ (circWalk services a d1.service [a.id] stA).1,
      r.type = "circular_dependency" ∧ r.entity = a.name := by
    rw [hd1t]
    exact circWalk_hit_self services a [a.id] stA hnd hcolon ha (by simp) hstA
  have h1 := exists_finding_of_prefix
    (circWalkDeps_mono services a l2 [a.id] _).1 hhit
  rw [← houter] at h1
  have h2 := exists_finding_of_prefix (circOuter_foldl_mono services p2 _) h1
  rw [← hrun] at h2
  exact h2

/-- C8 witness on the concrete self-dependency catalog. -/
theorem c8_findCircularDeps_selfdep_witness :
    ∃ r ∈ findCircularDeps demoSelf,
      r.type = "circular_dependency" ∧ r.entity = "S1" :=
  c8_findCircularDeps_selfdep demoSelf
    { id := "s1", name := "S1", dependsOn := some [⟨"s1", none, none⟩] }
    (by decide) (by decide) (by decide) (by decide)

/-! ## Duplicate-name lemmas (C9) -/

/-- Tally correctness: the stored count grows by the number of
case-insensitive occurrences. -/
theorem tallyNames_count (names : List String) :
    ∀ (seen : List (String × Nat)) (k : String),
      (mapGet (tallyNames names seen) k).getD 0 =
        (mapGet seen k).getD 0 + (names.map strLower).count k := by
  induction names with
  | nil => intro seen k; simp [tallyNames]
  | cons nm rest ih =>
    intro seen k
    show (mapGet (tallyNames rest _) k).getD 0 = _
    rw [ih, mapGet_mapSet]
    by_cases hk : k = strLower nm
    · subst hk
      rw [if_pos rfl]
      simp only [List.map_cons, List.count_cons, Option.getD_some]
      rw [if_pos (by simp)]
      omega
    · rw [if_neg hk]
      simp only [List.map_cons, List.count_cons]
      rw [if_neg (by simpa using fun h => hk h.symm)]
      omega

/-- Tally key presence: a key is stored iff it was seen or tallied. -/
theorem tallyNames_none (names : List String) :
    ∀ (seen : List (String × Nat)) (k : String),
      mapGet (tallyNames names seen) k = none ↔
        mapGet seen k = none ∧ k ∉ names.map strLower := by
  induction names with
  | nil => intro seen k; simp [tallyNames]
  | cons nm rest ih =>
    intro seen k
    show mapGet (tallyNames rest _) k = none ↔ _
    rw [ih]
    rw [mapGet_mapSet]
    by_cases hk : k = strLower nm
    · rw [if_pos hk]
      simp [hk]
    · rw [if_neg hk]
      simp [hk]

/-- `mapSet` either keeps the key list or appends the new key. -/
theorem mapSet_keys {α : Type} (m : List (String × α)) (k : String) (v : α) :
    (mapSet m k v).map Prod.fst =
      if k ∈ m.map Prod.fst then m.map Prod.fst
      else m.map Prod.fst ++ [k] := by
  induction m with
  | nil => simp [mapSet]
  | cons p rest ih =>
    obtain ⟨k0, v0⟩ := p
    have hstep : mapSet ((k0, v0) :: rest) k v =
        if k0 = k then (k, v) :: rest else (k0, v0) :: mapSet rest k v := rfl
    rw [hstep]
    by_cases hk : k0 = k
    · subst hk
      rw [if_pos rfl, if_pos (by simp)]
      simp
    · rw [if_neg hk]
      simp only [List.map_cons, ih]
      by_cases hmem : k ∈ rest.map Prod.fst
      · rw [if_pos hmem, if_pos (by simp [hmem])]
      · rw [if_neg hmem, if_neg (by
          simp only [List.map_cons, List.mem_cons]
          push_neg
          exact ⟨fun hc => hk hc.symm, hmem⟩)]
        simp

/-- `mapSet` preserves distinctness of keys. -/
theorem mapSet_keys_nodup {α : Type} (m : List (String × α)) (k : String)
    (v : α) (h : (m.map Prod.fst).Nodup) :
    ((mapSet m k v).map Prod.fst).Nodup := by
  rw [mapSet_keys]
  by_cases hmem : k ∈ m.map Prod.fst
  · rwa [if_pos hmem]
  · rw [if_neg hmem, List.nodup_append]
    exact ⟨h, List.nodup_singleton _, by simpa [List.disjoint_singleton] using hmem⟩

/-- The tally map has pairwise distinct keys. -/
theorem tallyNames_keys_nodup (names : List String) :
    ∀ (seen : List (String × Nat)), ((seen.map Prod.fst)).Nodup →
      ((tallyNames names seen).map Prod.fst).Nodup := by
  induction names with
  | nil => intro seen h; exact h
  | cons nm rest ih =>
    intro seen h
    exact ih _ (mapSet_keys_nodup seen (strLower nm) _ h)

/-- With distinct keys, each stored pair is what `mapGet` returns. -/
theorem mapGet_of_mem_of_nodup {α : Type} (m : List (String × α))
    (h : (m.map Prod.fst).Nodup) (p : String × α) (hp : p ∈ m) :
    mapGet m p.1 = some p.2 := by
  induction m with
  | nil => cases hp
  | cons q rest ih =>
    obtain ⟨k0, v0⟩ := q
    rw [List.map_cons, List.nodup_cons] at h
    rcases List.mem_cons.mp hp with rfl | hmem
    · rw [mapGet_cons, if_pos rfl]
    · rw [mapGet_cons]
      have hne : k0 ≠ p.1 := by
        intro hc
        have hm2 := List.mem_map_of_mem Prod.fst hmem
        rw [← hc] at hm2
        exact h.1 hm2
      rw [if_neg hne]
      exact ih h.2 hmem

/-- Every tally entry records the case-insensitive occurrence count. -/
theorem tallyNames_entry_count (names : List String) (p : String × Nat)
    (hp : p ∈ tallyNames names []) :
    p.2 = (names.map strLower).count p.1 := by
  have hnd : ((tallyNames names []).map Prod.fst).Nodup :=
    tallyNames_keys_nodup names [] (by simp)
  have hg := mapGet_of_mem_of_nodup _ hnd p hp
  have hc := tallyNames_count names [] p.1
  rw [hg] at hc
  simpa [mapGet_nil] using hc

/-- Per-kind uniqueness of lower-cased names gives no findings. -/
theorem dupFindings_eq_nil (kind : String) (names : List String)
    (h : (names.map strLower).Nodup) :
    dupFindings kind names = [] := by
  rw [dupFindings, List.filterMap_eq_nil_iff]
  intro p hp
  have := tallyNames_entry_count names p hp
  have hle : (names.map strLower).count p.1 ≤ 1 :=
    List.nodup_iff_count_le_one.mp h p.1
  rw [if_neg (by omega)]

/-- Findings of one kind carry entities drawn from the tally keys. -/
theorem dup_filter_not_mem (kind : String) (m : List (String × Nat))
    (n : String) (hn : n ∉ m.map Prod.fst) :
    ((m.filterMap (fun p =>
        if 1 < p.2 then some (dupFinding kind p) else none)).filter
      (fun r => r.entityKind == kind && r.entity == n)) = [] := by
  induction m with
  | nil => rfl
  | cons p rest ih =>
    rw [List.map_cons, List.mem_cons, not_or] at hn
    rw [List.filterMap_cons]
    by_cases hc : 1 < p.2
    · rw [if_pos hc, List.filter_cons]
      rw [if_neg (by simp [dupFinding, (Ne.symm hn.1 : p.1 ≠ n)])]
      exact ih hn.2
    · rw [if_neg hc]
      exact ih hn.2

/-- Exactly one finding of a kind carries a given shared name. -/
theorem dup_filter_length_one (kind : String) (m : List (String × Nat))
    (n : String) (hnd : (m.map Prod.fst).Nodup) (c : Nat)
    (hc : mapGet m n = some c) (h2 : 1 < c) :
    ((m.filterMap (fun p =>
        if 1 < p.2 then some (dupFinding kind p) else none)).filter
      (fun r => r.entityKind == kind && r.entity == n)).length = 1 := by
  induction m with
  | nil => cases hc
  | cons p rest ih =>
    obtain ⟨k0, c0⟩ := p
    rw [List.map_cons, List.nodup_cons] at hnd
    rw [mapGet_cons] at hc
    rw [List.filterMap_cons]
    by_cases hk : k0 = n
    · subst hk
      rw [if_pos rfl] at hc
      obtain rfl : c0 = c := by simpa using hc
      rw [if_pos h2, List.filter_cons, if_pos (by simp [dupFinding])]
      rw [dup_filter_not_mem kind rest k0 hnd.1]
      rfl
    · rw [if_neg hk] at hc
      by_cases hgt : 1 < c0
      · rw [if_pos hgt, List.filter_cons,
          if_neg (by simp [dupFinding, hk])]
        exact ih hnd.2 hc
      · rw [if_neg hgt]
        exact ih hnd.2 hc

/-- Membership characterization of `dupFindings`. -/
theorem mem_dupFindings (kind : String) (names : List String) (r : LintResult)
    (h : r ∈ dupFindings kind names) :
    ∃ p ∈ tallyNames names [], 1 < p.2 ∧ r = dupFinding kind p := by
  rw [dupFindings] at h
  obtain ⟨p, hp, hf⟩ := List.mem_filterMap.mp h
  by_cases hc : 1 < p.2
  · rw [if_pos hc] at hf
    exact ⟨p, hp, hc, (Option.some_inj.mp hf).symm⟩
  · rw [if_neg hc] at hf
    cases hf

/-- The service-kind duplicate message, with the literals fused. -/
theorem dupFinding_service_message (p : String × Nat) :
    (dupFinding "service" p).message =
      toString p.2 ++ " services share the name \"" ++ p.1 ++ "\"" := by
  show toString p.2 ++ " " ++ "service" ++ "s share the name \"" ++ p.1 ++ "\""
    = _
  rw [String.append_assoc (toString p.2) " " "service",
    show (" " ++ "service" : String) = " service" from rfl,
    String.append_assoc (toString p.2) " service" "s share the name \"",
    show (" service" ++ "s share the name \"" : String)
      = " services share the name \"" from rfl]

/-- C9: duplicate-name detection is case-insensitive and scoped per entity
kind: with per-kind (case-insensitively) unique names there are no findings
even if a service and a system share a literal name; and when `n` is a
lower-cased name shared by two or more services there is exactly one
`duplicate_name` finding of kind `service` with entity `n`, whose message
states the share count.  (JavaScript `toLowerCase()` is modelled by
`strLower`.) -/
theorem c9_findDuplicateNames (services : List Service) (systems : List System)
    (owners : List Owner) :
    ((((services.map Service.name).map strLower).Nodup ∧
      ((systems.map System.name).map strLower).Nodup ∧
      ((owners.map Owner.name).map strLower).Nodup) →
      findDuplicateNames services systems owners = []) ∧
    (∀ n : String,
      1 < ((services.map Service.name).map strLower).count n →
      (((findDuplicateNames services systems owners).filter
        (fun r => r.entityKind == "service" && r.entity == n)).length = 1 ∧
      ∀ r ∈ findDuplicateNames services systems owners,
        r.entityKind = "service" → r.entity = n →
        r.type = "duplicate_name" ∧
        r.message =
          toString (((services.map Service.name).map strLower).count n)
            ++ " services share the name \"" ++ n ++ "\"")) := by
  constructor
  · rintro ⟨h1, h2, h3⟩
    rw [findDuplicateNames, dupFindings_eq_nil _ _ h1,
      dupFindings_eq_nil _ _ h2, dupFindings_eq_nil _ _ h3]
    rfl
  · intro n hn
    have hkeys : ((tallyNames (services.map Service.name) []).map
        Prod.fst).Nodup := tallyNames_keys_nodup _ [] (by simp)
    have hnotnone : mapGet (tallyNames (services.map Service.name) []) n ≠
        none := by
      intro hnone
      rw [tallyNames_none] at hnone
      exact hnone.2 (List.count_pos_iff.mp (by omega))
    obtain ⟨c, hc⟩ := Option.ne_none_iff_exists'.mp hnotnone
    have hcc : c = ((services.map Service.name).map strLower).count n := by
      have h := tallyNames_count (services.map Service.name) [] n
      rw [hc] at h
      simpa [mapGet_nil] using h
    constructor
    · rw [findDuplicateNames, List.filter_append, List.filter_append]
      have hB : (dupFindings "system" (systems.map System.name)).filter
          (fun r => r.entityKind == "service" && r.entity == n) = [] := by
        rw [List.filter_eq_nil_iff]
        intro r hr
        obtain ⟨p, _, _, rfl⟩ := mem_dupFindings _ _ r hr
        simp [dupFinding]
      have hC : (dupFindings "owner" (owners.map Owner.name)).filter
          (fun r => r.entityKind == "service" && r.entity == n) = [] := by
        rw [List.filter_eq_nil_iff]
        intro r hr
        obtain ⟨p, _, _, rfl⟩ := mem_dupFindings _ _ r hr
        simp [dupFinding]
      rw [hB, hC, List.append_nil, List.append_nil, dupFindings]
      exact dup_filter_length_one "service" _ n hkeys c hc (by omega)
    · intro r hr hkind hent
      rw [findDuplicateNames] at hr
      rcases List.mem_append.mp hr with hr' | hrC
      · rcases List.mem_append.mp hr' with hrA | hrB
        · obtain ⟨p, hp, hgt, rfl⟩ := mem_dupFindings _ _ r hrA
          have hp1 : p.1 = n := hent
          have hp2 : p.2 =
              ((services.map Service.name).map strLower).count n := by
            rw [tallyNames_entry_count _ _ hp, hp1]
          refine ⟨rfl, ?_⟩
          rw [dupFinding_service_message, hp1, hp2]
        · obtain ⟨p, _, _, rfl⟩ := mem_dupFindings _ _ r hrB
          exact absurd hkind (by simp [dupFinding])
      · obtain ⟨p, _, _, rfl⟩ := mem_dupFindings _ _ r hrC
        exact absurd hkind (by simp [dupFinding])

/-- C9 witness: two services named `svc-c`/`SVC-C` plus a service and a
system both literally named `payments`: exactly one service-kind finding
for `svc-c`, and its message states the share count 2. -/
theorem c9_findDuplicateNames_witness :
    ((findDuplicateNames demoDupServices demoDupSystems []).filter
      (fun r => r.entityKind == "service" && r.entity == "svc-c")).length = 1 :=
  ((c9_findDuplicateNames demoDupServices demoDupSystems []).2 "svc-c"
    (by decide)).1

/-! ## Owner handling (C10) -/

/-- Membership characterization of a guarded `filterMap`. -/
theorem mem_filterMap_guard {α : Type} (l : List α) (cond : α → Prop)
    [DecidablePred cond] (mk : α → LintResult) (r : LintResult)
    (h : r ∈ l.filterMap (fun a => if cond a then some (mk a) else none)) :
    ∃ a ∈ l, cond a ∧ r = mk a := by
  obtain ⟨a, ha, hfa⟩ := List.mem_filterMap.mp h
  by_cases hc : cond a
  · rw [if_pos hc] at hfa
    exact ⟨a, ha, hc, (Option.some_inj.mp hfa).symm⟩
  · rw [if_neg hc] at hfa
    cases hfa

/-- C10: a present-but-empty `owner` field is classified as missing: the
service receives a `missing_owner` warning from `runLintChecks`, and every
`orphaned_owner_ref` finding of the run stems from an entity whose owner
reference is truthy (non-empty), so an empty-string owner never produces
one. -/
theorem c10_empty_owner (services : List Service) (systems : List System)
    (owners : List Owner) (s : Service) (hs : s ∈ services)
    (hempty : s.owner = some "") :
    (missingOwnerFinding s ∈ runLintChecks services systems owners ∧
      (missingOwnerFinding s).type = "missing_owner" ∧
      (missingOwnerFinding s).severity = "warning" ∧
      (missingOwnerFinding s).entity = s.name) ∧
    (∀ r ∈ runLintChecks services systems owners,
      r.type = "orphaned_owner_ref" →
      (∃ t ∈ services, strTruthy t.owner = true ∧ r.entity = t.name) ∨
      (∃ sys ∈ systems, strTruthy sys.owner = true ∧ r.entity = sys.name)) := by
  constructor
  · have hmem : missingOwnerFinding s ∈ findMissingOwners services := by
      unfold findMissingOwners
      apply List.mem_map_of_mem
      rw [List.mem_filter]
      refine ⟨hs, ?_⟩
      rw [hempty]
      rfl
    refine ⟨?_, rfl, rfl, rfl⟩
    unfold runLintChecks
    simp only [List.append_assoc, List.mem_append]
    exact Or.inr (Or.inr (Or.inl hmem))
  · intro r hr htype
    unfold runLintChecks at hr
    simp only [List.append_assoc, List.mem_append] at hr
    rcases hr with h1 | h2 | h3 | h4 | h5 | h6 | h7
    · obtain ⟨t, _, _, rfl⟩ := mem_filterMap_guard _ _ _ r h1
      exact absurd htype (by simp [missingOwnerFinding, dupFinding])
    · rw [findOrphanedOwnerRefs] at h2
      rcases List.mem_append.mp h2 with hsvc | hsys
      · obtain ⟨t, ht, hcond, rfl⟩ := mem_filterMap_guard _ _ _ r hsvc
        have hc1 : strTruthy t.owner = true := by
          revert hcond
          cases strTruthy t.owner <;> simp
        exact Or.inl ⟨t, ht, hc1, rfl⟩
      · obtain ⟨sys, hsy, hcond, rfl⟩ := mem_filterMap_guard _ _ _ r hsys
        have hc1 : strTruthy sys.owner = true := by
          revert hcond
          cases strTruthy sys.owner <;> simp
        exact Or.inr ⟨sys, hsy, hc1, rfl⟩
    · rw [findMissingOwners] at h3
      obtain ⟨t, _, rfl⟩ := List.mem_map.mp h3
      exact absurd htype (by simp [missingOwnerFinding, dupFinding])
    · rw [findDanglingDeps] at h4
      obtain ⟨inner, hinner, hrin⟩ := List.mem_flatten.mp h4
      obtain ⟨t, _, rfl⟩ := List.mem_map.mp hinner
      obtain ⟨dep, _, hfa⟩ := List.mem_filterMap.mp hrin
      by_cases hc : (services.map Service.id).contains dep.service = true
      · rw [if_pos hc] at hfa
        cases hfa
      · rw [if_neg hc] at hfa
        rw [← Option.some_inj.mp hfa] at htype
        exact absurd htype (by simp [missingOwnerFinding, dupFinding])
    · have hall := ((c3_findCircularDeps services).2).2.2 r h5
      rw [hall] at htype
      exact absurd htype (by simp [missingOwnerFinding, dupFinding])
    · rw [findDuplicateNames] at h6
      rcases List.mem_append.mp h6 with h6' | h6c
      · rcases List.mem_append.mp h6' with h6a | h6b
        · obtain ⟨p, _, _, rfl⟩ := mem_dupFindings _ _ r h6a
          exact absurd htype (by simp [missingOwnerFinding, dupFinding])
        · obtain ⟨p, _, _, rfl⟩ := mem_dupFindings _ _ r h6b
          exact absurd htype (by simp [missingOwnerFinding, dupFinding])
      · obtain ⟨p, _, _, rfl⟩ := mem_dupFindings _ _ r h6c
        exact absurd htype (by simp [missingOwnerFinding, dupFinding])
    · rw [findEmptySystems] at h7
      obtain ⟨sys, _, rfl⟩ := List.mem_map.mp h7
      exact absurd htype (by simp [missingOwnerFinding, dupFinding])

/-- C10 witness on the concrete empty-owner catalog. -/
theorem c10_empty_owner_witness :
    missingOwnerFinding
        { id := "e1", name := "EmptyOwned", owner := some "" } ∈
      runLintChecks demoEmptyOwner [] [] :=
  ((c10_empty_owner demoEmptyOwner [] []
    { id := "e1", name := "EmptyOwned", owner := some "" }
    (by decide) rfl).1).1
